import Mathlib

/-!
Verification of the scatter-gather copy engine and completion pipeline of
`hw/virtio/virtio-video-util.c`.

Modelling conventions:
* Guest/host memory bytes are `Nat`; a source buffer is a memory function
  `m : Nat → Nat` together with a start address, so pointer arithmetic
  (`src += len`) becomes address arithmetic.
* A slice (`VirtIOVideoResourceSlice`) is modelled by its mapped contents,
  a `List Nat` whose length is `slice->page.len`.  A plane is the ordered
  list of its slices, and `res->slices` is the list of planes;
  `res->num_entries[i]` is the length of the i-th plane's slice list.
* `uint32_t` values are `Nat`.  Every subtraction performed by the source
  is guarded by a comparison making it exact, except where noted; additions
  that a `uint32_t` could wrap are taken modulo `U32 = 2^32` in the
  definitions, and theorems carry the no-overflow hypotheses under which
  the modulus is the identity.
* A `MEMCPY_S` into a slice is modelled by `writeAtO`, which yields `none`
  when the copy would run past the end of the mapped fragment (undefined
  behaviour in the source); the loop invariants of the source keep all the
  copies the theorems touch in bounds.
* Fallible operations therefore return `Option`; the `int` result code of
  the source (0 success, -1 failure) is an `Int`.
-/

def U32 : Nat := 4294967296

/-- Wrapping `uint32_t` subtraction `a - b` (two's complement, modulo 2^32). -/
def wsub (a b : Nat) : Nat := (a + (U32 - b % U32)) % U32

/-- The `n` bytes of guest memory `m` starting at address `a`. -/
def memBytes (m : Nat → Nat) (a n : Nat) : List Nat :=
  (List.range n).map fun j => m (a + j)

/-- Overwrite the bytes of `F` at positions `[p, p + b.length)` with `b`. -/
def splice (F : List Nat) (p : Nat) (b : List Nat) : List Nat :=
  F.take p ++ b ++ F.drop (p + b.length)

/-- Bounded copy of `b` into slice contents `s` at offset `off`
(`MEMCPY_S(s + off, ..., b.length)`); `none` when the copy would overrun
the mapped fragment. -/
def writeAtO (s : List Nat) (off : Nat) (b : List Nat) : Option (List Nat) :=
  if off + b.length ≤ s.length then some (splice s off b) else none

/-- Modelled from the spec: the plane-layout tags
`VIRTIO_VIDEO_PLANES_LAYOUT_*` are defined in the virtio-video headers,
which are not part of this unit; they are distinct bit flags. -/
def VIRTIO_VIDEO_PLANES_LAYOUT_SINGLE_BUFFER : Nat := 1

/-- Modelled from the spec: see `VIRTIO_VIDEO_PLANES_LAYOUT_SINGLE_BUFFER`. -/
def VIRTIO_VIDEO_PLANES_LAYOUT_PER_PLANE : Nat := 2

/-- Modelled from the spec: the response status codes are defined in the
virtio-video headers outside this unit; the claims only need the two codes
used by the completion pipeline to be fixed values. -/
def VIRTIO_VIDEO_RESP_OK_NODATA : Nat := 512

/-- Modelled from the spec: see `VIRTIO_VIDEO_RESP_OK_NODATA`. -/
def VIRTIO_VIDEO_RESP_ERR_INVALID_OPERATION : Nat := 262

/-- The part of `VirtIOVideoResource` the copy engine reads:
`planes_layout`, `plane_offsets[]`, the per-plane slice lists (with their
mapped contents), and the optional `remapped_base` contiguous region
(modelled by its contents; its length is `remapped_size`). -/
structure VirtIOVideoResource where
  planes_layout : Nat
  plane_offsets : List Nat
  slices : List (List (List Nat))
  remapped_base : Option (List Nat)

/-- Loop body of `virtio_video_memcpy_perplane` (lines 647-673): walk the
plane's slices from the start; if the remaining `size` fits in the current
slice copy it and return 0 at once, otherwise fill the slice completely and
continue; falling off the end with bytes remaining is reported as -1. -/
def memcpyPerplaneLoop (m : Nat → Nat) (a size : Nat) :
    List (List Nat) → List (List Nat) × Int
  | [] => ([], if 0 < size then -1 else 0)
  | s :: rest =>
    if size ≤ s.length then
      (splice s 0 (memBytes m a size) :: rest, 0)
    else
      let r := memcpyPerplaneLoop m (a + s.length) (size - s.length) rest
      (splice s 0 (memBytes m a s.length) :: r.1, r.2)

/-- `virtio_video_memcpy_perplane`: write `size` bytes from source address
`a` into plane `idx` of `res`. -/
def virtio_video_memcpy_perplane (res : VirtIOVideoResource) (idx : Nat)
    (m : Nat → Nat) (a size : Nat) : VirtIOVideoResource × Int :=
  let r := memcpyPerplaneLoop m a size (res.slices.getD idx [])
  ({ res with slices := res.slices.set idx r.1 }, r.2)

/-- Loop body of `virtio_video_memcpy_perplane_r` (lines 392-415): for every
slice copy `cur_len = min(size, slice.len)` bytes out of it (the loop keeps
running with `cur_len = 0` once `size` is exhausted); report -1 if bytes
remain after the last slice. -/
def memcpyPerplaneRLoop (size : Nat) : List (List Nat) → List Nat × Int
  | [] => ([], if 0 < size then -1 else 0)
  | s :: rest =>
    let cur := if s.length ≤ size then s.length else size
    let r := memcpyPerplaneRLoop (size - cur) rest
    (s.take cur ++ r.1, r.2)

/-- `virtio_video_memcpy_perplane_r`: read `size` bytes out of plane `idx`;
returns the bytes deposited into `dst` and the result code. -/
def virtio_video_memcpy_perplane_r (res : VirtIOVideoResource) (idx size : Nat) :
    List Nat × Int :=
  memcpyPerplaneRLoop size (res.slices.getD idx [])

/-- Loop body of `virtio_video_memdump_perplane` (lines 675-700): the same
traversal as the per-plane read, but the `return -1` on exhaustion is
commented out in the source, so the shortfall is only logged and the
function returns 0. -/
def memdumpPerplaneLoop (size : Nat) : List (List Nat) → List Nat × Int
  | [] => ([], 0)
  | s :: rest =>
    if size ≤ s.length then
      (s.take size, 0)
    else
      let r := memdumpPerplaneLoop (size - s.length) rest
      (s ++ r.1, r.2)

/-- `virtio_video_memdump_perplane`: tolerant dump of `size` bytes out of
plane `idx`. -/
def virtio_video_memdump_perplane (res : VirtIOVideoResource) (idx size : Nat) :
    List Nat × Int :=
  memdumpPerplaneLoop size (res.slices.getD idx [])

/-- Loop body of `virtio_video_memcpy_singlebuffer` (lines 417-463), slice
path: walk the shared plane-0 slice sequence with a cumulative base offset,
skipping slices that end at or before `begin_`; `e` is the `end` value
`begin + size` computed (mod 2^32) once on entry.  `diff := begin_ - base`
is exact whenever `begin_ ≥ base`, which the source's skip test guarantees
on entry and the loop preserves. -/
def memcpySinglebufferLoop (m : Nat → Nat) (e : Nat) :
    Nat → Nat → Nat → Nat → List (List Nat) → Option (List (List Nat) × Int)
  | size, _begin_, _base, _a, [] => some ([], if 0 < size then -1 else 0)
  | size, begin_, base, a, s :: rest =>
    if (base + s.length) % U32 ≤ begin_ then
      match memcpySinglebufferLoop m e size begin_ ((base + s.length) % U32) a rest with
      | none => none
      | some r => some (s :: r.1, r.2)
    else
      let diff := begin_ - base
      let len := s.length - diff
      if e ≤ (base + s.length) % U32 then
        match writeAtO s diff (memBytes m a size) with
        | none => none
        | some s2 => some (s2 :: rest, 0)
      else
        match writeAtO s diff (memBytes m a len) with
        | none => none
        | some s2 =>
          match memcpySinglebufferLoop m e (size - len) ((begin_ + len) % U32)
              ((base + s.length) % U32) (a + len) rest with
          | none => none
          | some r => some (s2 :: r.1, r.2)

/-- `virtio_video_memcpy_singlebuffer`: if a remapped contiguous region
exists, `memcpy` the whole request into it with no bound check against
`remapped_size` (the splice simply grows past the mapped length on
overflow, mirroring the unchecked copy) and return 0; otherwise walk the
shared slice sequence from `plane_offsets[idx]`. -/
def virtio_video_memcpy_singlebuffer (res : VirtIOVideoResource) (idx : Nat)
    (m : Nat → Nat) (a size : Nat) : Option (VirtIOVideoResource × Int) :=
  match res.remapped_base with
  | some buf => some ({ res with remapped_base := some (splice buf 0 (memBytes m a size)) }, 0)
  | none =>
    let begin_ := res.plane_offsets.getD idx 0
    match memcpySinglebufferLoop m ((begin_ + size) % U32) size begin_ 0 a
        (res.slices.getD 0 []) with
    | none => none
    | some r => some ({ res with slices := res.slices.set 0 r.1 }, r.2)

/-- Loop body of `virtio_video_memcpy_singlebuffer_r` (lines 363-389): walk
the shared slice sequence skipping slices ending at or before `begin_`,
copying `cur_len = min(size, slice.len - diff)` out of each touched slice.
The function body contains no exhaustion check at all: after the loop it
returns 0 unconditionally, so the result list may be shorter than `size`. -/
def memcpySinglebufferRLoop : Nat → Nat → Nat → List (List Nat) → List Nat
  | _size, _begin_, _pos, [] => []
  | size, begin_, pos, s :: rest =>
    if (pos + s.length) % U32 ≤ begin_ then
      memcpySinglebufferRLoop size begin_ ((pos + s.length) % U32) rest
    else
      let diff := begin_ - pos
      let cur := if s.length - diff < size then s.length - diff else size
      (s.drop diff).take cur ++
        memcpySinglebufferRLoop (size - cur) (begin_ + cur) ((pos + s.length) % U32) rest

/-- `virtio_video_memcpy_singlebuffer_r`: read out of the shared slice
sequence starting at `plane_offsets[idx]`.  The source returns -1 only for
NULL `pRes`/`pDst` (not modelled: the claims concern valid pointers) and 0
in every other case, with no buffer-insufficient detection. -/
def virtio_video_memcpy_singlebuffer_r (res : VirtIOVideoResource) (idx size : Nat) :
    List Nat × Int :=
  (memcpySinglebufferRLoop size (res.plane_offsets.getD idx 0) 0
    (res.slices.getD 0 []), 0)

/-- Loop body of `virtio_video_memdump_singlebuffer` (lines 611-645): the
read-direction twin of the single-buffer write, including the `return -1`
on exhaustion (this dump variant is strict; only the per-plane dump
tolerates a shortfall). -/
def memdumpSinglebufferLoop (e : Nat) :
    Nat → Nat → Nat → List (List Nat) → List Nat × Int
  | size, _begin_, _base, [] => ([], if 0 < size then -1 else 0)
  | size, begin_, base, s :: rest =>
    if (base + s.length) % U32 ≤ begin_ then
      memdumpSinglebufferLoop e size begin_ ((base + s.length) % U32) rest
    else
      let diff := begin_ - base
      let len := s.length - diff
      if e ≤ (base + s.length) % U32 then
        ((s.drop diff).take size, 0)
      else
        let r := memdumpSinglebufferLoop e (size - len) ((begin_ + len) % U32)
          ((base + s.length) % U32) rest
        ((s.drop diff).take len ++ r.1, r.2)

/-- `virtio_video_memdump_singlebuffer`. -/
def virtio_video_memdump_singlebuffer (res : VirtIOVideoResource) (idx size : Nat) :
    List Nat × Int :=
  let begin_ := res.plane_offsets.getD idx 0
  memdumpSinglebufferLoop ((begin_ + size) % U32) size begin_ 0 (res.slices.getD 0 [])

/-- `virtio_video_memcpy` (lines 715-726): dispatch a write on the
resource's layout tag; unknown layouts yield -1. -/
def virtio_video_memcpy (res : VirtIOVideoResource) (idx : Nat)
    (m : Nat → Nat) (a size : Nat) : Option (VirtIOVideoResource × Int) :=
  if res.planes_layout = VIRTIO_VIDEO_PLANES_LAYOUT_SINGLE_BUFFER then
    virtio_video_memcpy_singlebuffer res idx m a size
  else if res.planes_layout = VIRTIO_VIDEO_PLANES_LAYOUT_PER_PLANE then
    some (virtio_video_memcpy_perplane res idx m a size)
  else
    some (res, -1)

/-- `virtio_video_memcpy_r` (lines 728-739): dispatch a read on the layout
tag; the pair is (bytes deposited into `dst`, result code). -/
def virtio_video_memcpy_r (res : VirtIOVideoResource) (idx size : Nat) :
    List Nat × Int :=
  if res.planes_layout = VIRTIO_VIDEO_PLANES_LAYOUT_SINGLE_BUFFER then
    virtio_video_memcpy_singlebuffer_r res idx size
  else if res.planes_layout = VIRTIO_VIDEO_PLANES_LAYOUT_PER_PLANE then
    virtio_video_memcpy_perplane_r res idx size
  else
    ([], -1)

/-- `virtio_video_memdump` (lines 702-713): dispatch a dump on the layout
tag. -/
def virtio_video_memdump (res : VirtIOVideoResource) (idx size : Nat) :
    List Nat × Int :=
  if res.planes_layout = VIRTIO_VIDEO_PLANES_LAYOUT_SINGLE_BUFFER then
    virtio_video_memdump_singlebuffer res idx size
  else if res.planes_layout = VIRTIO_VIDEO_PLANES_LAYOUT_PER_PLANE then
    virtio_video_memdump_perplane res idx size
  else
    ([], -1)

/-- Inner `while (margin > 0 && page < res->num_entries[0])` loop of
`virtio_video_memcpy_byline` (lines 520-538): carry the remainder
(`margin`) of the current row into subsequent slices.  The result tuple is
the state `(plane, page, diff, len, src, size)` at loop exit.  Note the
source checks `page < num_entries[0]` *before* incrementing `page`, so the
access `slices[idx][page + 1]` can fall outside the plane; that
out-of-bounds access is `none` here. -/
def bylineWhile (mem : Nat → Nat) (width pitch bound : Nat) :
    List (List Nat) → Nat → Nat → Nat → Nat → Nat → Nat →
    Option (List (List Nat) × Nat × Nat × Nat × Nat × Nat)
  | plane, page, diff, len, src, size, margin =>
    if h : 0 < margin ∧ page < bound then
      match plane.get? (page + 1) with
      | none => none
      | some s =>
        let len2 := s.length
        if margin ≤ len2 then
          match writeAtO s 0 (memBytes mem src margin) with
          | none => none
          | some s2 =>
            bylineWhile mem width pitch bound (plane.set (page + 1) s2) (page + 1)
              margin (len2 - margin) (src + (pitch - width + margin)) (wsub size margin) 0
        else
          match writeAtO s 0 (memBytes mem src len2) with
          | none => none
          | some s2 =>
            bylineWhile mem width pitch bound (plane.set (page + 1) s2) (page + 1)
              0 len2 (src + len2) (wsub size len2) (margin - len2)
    else
      some (plane, page, diff, len, src, size)
  termination_by _plane page _diff _len _src _size _margin => bound - page
  decreasing_by all_goals exact Nat.sub_lt_sub_left h.2 (Nat.lt_succ_self page)

/-- Outer `for (i = 0; i < cp_height && page < res->num_entries[0]; i++)`
loop of `virtio_video_memcpy_byline` (lines 502-540); `rows` counts the
rows still to copy (`cp_height - i`).  At row `height` the source pointer
switches to the secondary (chroma) buffer `srcUV`.  A row that fits in the
current slice is copied whole and the source pointer advances by `pitch`;
otherwise the first `len` bytes are copied and the remaining
`margin = width - len` is carried into the following slices by
`bylineWhile`. -/
def bylineRows (mem : Nat → Nat) (srcUV width height pitch bound : Nat) :
    Nat → Nat → List (List Nat) → Nat → Nat → Nat → Nat → Nat →
    Option (List (List Nat) × Nat)
  | 0, _i, plane, _page, _diff, _len, _src, size => some (plane, size)
  | rows + 1, i, plane, page, diff, len, src, size =>
    if page < bound then
      let src1 := if i = height then srcUV else src
      match plane.get? page with
      | none => none
      | some s =>
        if width ≤ len then
          match writeAtO s diff (memBytes mem src1 width) with
          | none => none
          | some s2 =>
            bylineRows mem srcUV width height pitch bound rows (i + 1)
              (plane.set page s2) page (diff + width) (len - width)
              (src1 + pitch) (wsub size width)
        else
          match writeAtO s diff (memBytes mem src1 len) with
          | none => none
          | some s2 =>
            match bylineWhile mem width pitch bound (plane.set page s2) page
                (diff + len) len (src1 + len) (wsub size len) (width - len) with
            | none => none
            | some (plane2, page2, diff2, len2, src2, size2) =>
              bylineRows mem srcUV width height pitch bound rows (i + 1)
                plane2 page2 diff2 len2 src2 size2
    else
      some (plane, size)

/-- `virtio_video_memcpy_byline` (lines 486-549): line-strided write of
`cp_height` rows of `width` bytes each, the source rows `pitch` bytes
apart, into the slices of plane `idx` starting at byte offset
`plane_offsets[idx]` of its first slice.  The source dereferences
`slices[idx][0]` unconditionally and computes
`len = slice->page.len - diff` in `uint32_t`; a missing first slice or an
offset past its end (which would make that subtraction wrap and the first
copy run out of bounds) is `none`. -/
def virtio_video_memcpy_byline (res : VirtIOVideoResource) (idx : Nat)
    (mem : Nat → Nat) (src_begin src_uv width height pitch cp_size cp_height : Nat) :
    Option (VirtIOVideoResource × Int) :=
  let plane := res.slices.getD idx []
  let begin_ := res.plane_offsets.getD idx 0
  let bound := (res.slices.getD 0 []).length
  match plane.get? 0 with
  | none => none
  | some s0 =>
    if begin_ ≤ s0.length then
      match bylineRows mem src_uv width height pitch bound cp_height 0 plane 0
          begin_ (s0.length - begin_) src_begin cp_size with
      | none => none
      | some (plane2, size2) =>
        some ({ res with slices := res.slices.set idx plane2 },
              if 0 < size2 then -1 else 0)
    else
      none

/-- `virtio_video_memcpy_NV12_byline` (lines 466-474). -/
def virtio_video_memcpy_NV12_byline (res : VirtIOVideoResource) (mem : Nat → Nat)
    (aY aUV width height pitch : Nat) : Option (VirtIOVideoResource × Int) :=
  virtio_video_memcpy_byline res 0 mem aY aUV width height pitch
    (width * height * 3 / 2) (height * 3 / 2)

/-- `virtio_video_memcpy_ARGB_byline` (lines 476-484). -/
def virtio_video_memcpy_ARGB_byline (res : VirtIOVideoResource) (mem : Nat → Nat)
    (a width height pitch : Nat) : Option (VirtIOVideoResource × Int) :=
  virtio_video_memcpy_byline res 0 mem a a (width * 4) height pitch
    (width * height * 4) height

/-- A `VirtQueueElement`, reduced to what the completion pipeline inspects:
an opaque identity, the number of in-direction iovec segments, and the byte
capacity of the in-direction buffers (modelled as a single segment, so
`in_sg[0].iov_len` and the total capacity seen by `iov_from_buf`
coincide). -/
structure VirtQueueElem where
  id : Nat
  in_num : Nat
  in_cap : Nat

/-- Modelled from the spec: `sizeof(virtio_video_cmd_hdr)` — two `uint32`
fields (type, stream_id) defined in the headers outside this unit. -/
def sizeof_virtio_video_cmd_hdr : Nat := 8

/-- Modelled from the spec: `sizeof(virtio_video_event)` — two `uint32`
fields (event_type, stream_id). -/
def sizeof_virtio_video_event : Nat := 8

/-- The in-flight command slot of a stream (`VirtIOVideoCmd`): the pending
command's type tag and its reply element. -/
structure VirtIOVideoCmd where
  cmd_type : Nat
  elem : VirtQueueElem

/-- The slice of `VirtIOVideoStream` the completion protocol uses. -/
structure VirtIOVideoStream where
  id : Nat
  inflight_cmd : VirtIOVideoCmd

/-- `struct virtio_video_cmd_bh_arg` minus the device back-pointer (the
device reference it carries is counted in `SchedState.dev_refs`). -/
structure CmdBhArg where
  cmd : VirtIOVideoCmd
  stream_id : Nat

/-- The deferred-task context shared by the `inflight_cmd` operations: the
FIFO of bottom halves scheduled on the device's context (each entry is the
argument plus the `success` flag distinguishing `virtio_video_cmd_done_bh`
from `virtio_video_cmd_cancel_bh`), and the device reference count. -/
structure SchedState where
  pending : List (CmdBhArg × Bool)
  dev_refs : Nat

/-- A fixed-layout `virtio_video_cmd_hdr` response. -/
structure virtio_video_cmd_hdr where
  type : Nat
  stream_id : Nat

/-- The externally visible effects of one run of
`virtio_video_cmd_others_complete`: the responses pushed and signalled, the
elements `g_free`d, and the number of `object_unref` calls on the device. -/
structure CmdCompleteFx where
  transmitted : List virtio_video_cmd_hdr
  freed_elems : List Nat
  unrefs : Nat

/-- `virtio_video_cmd_others_complete` (lines 873-916): build the response
header (OK-no-data on success, invalid-operation on cancel) and copy it
into the element's in-buffers.  When `iov_from_buf` cannot place the whole
header the element is detached and freed and the function returns early —
*without* the `object_unref` that ends the success path. -/
def virtio_video_cmd_others_complete (s : CmdBhArg) (success : Bool) : CmdCompleteFx :=
  let resp : virtio_video_cmd_hdr :=
    { type := if success then VIRTIO_VIDEO_RESP_OK_NODATA
              else VIRTIO_VIDEO_RESP_ERR_INVALID_OPERATION,
      stream_id := s.stream_id }
  if s.cmd.elem.in_num = 0 ∨ s.cmd.elem.in_cap < sizeof_virtio_video_cmd_hdr then
    { transmitted := [], freed_elems := [s.cmd.elem.id], unrefs := 0 }
  else
    { transmitted := [resp], freed_elems := [s.cmd.elem.id], unrefs := 1 }

/-- `virtio_video_cmd_done_bh` (lines 918-924). -/
def virtio_video_cmd_done_bh (s : CmdBhArg) : CmdCompleteFx :=
  virtio_video_cmd_others_complete s true

/-- `virtio_video_cmd_cancel_bh` (lines 926-932). -/
def virtio_video_cmd_cancel_bh (s : CmdBhArg) : CmdCompleteFx :=
  virtio_video_cmd_others_complete s false

/-- `virtio_video_inflight_cmd_done` (lines 934-947): unconditionally
snapshot the stream's `inflight_cmd` into a fresh bottom-half argument,
clear only the slot's `cmd_type`, take a device reference and schedule
`virtio_video_cmd_done_bh`.  There is no check that the slot is still
occupied. -/
def virtio_video_inflight_cmd_done (stream : VirtIOVideoStream) (sched : SchedState) :
    VirtIOVideoStream × SchedState :=
  ({ stream with inflight_cmd := { stream.inflight_cmd with cmd_type := 0 } },
   { pending := sched.pending ++ [({ cmd := stream.inflight_cmd, stream_id := stream.id }, true)],
     dev_refs := sched.dev_refs + 1 })

/-- `virtio_video_inflight_cmd_cancel` (lines 949-962): identical to
`virtio_video_inflight_cmd_done` but schedules the cancel bottom half. -/
def virtio_video_inflight_cmd_cancel (stream : VirtIOVideoStream) (sched : SchedState) :
    VirtIOVideoStream × SchedState :=
  ({ stream with inflight_cmd := { stream.inflight_cmd with cmd_type := 0 } },
   { pending := sched.pending ++ [({ cmd := stream.inflight_cmd, stream_id := stream.id }, false)],
     dev_refs := sched.dev_refs + 1 })

/-- Run the scheduled command bottom halves in FIFO order and collect every
response they transmit. -/
def runCmdBhs (pending : List (CmdBhArg × Bool)) : List virtio_video_cmd_hdr :=
  (pending.map fun p => (virtio_video_cmd_others_complete p.1 p.2).transmitted).flatten

/-- An out-of-band event notification (type + stream id); the `elem` field
of the source's `VirtIOVideoEvent` is only assigned on the immediate
completion path and is not stored with backlogged events. -/
structure VirtIOVideoEvent where
  event_type : Nat
  stream_id : Nat

/-- The device state touched by the event path: the pending-event backlog
(`v->event_queue`, a FIFO), the available elements of the event virtqueue
in pop order, and the responses transmitted so far (in transmission
order). -/
structure EventDevState where
  event_queue : List VirtIOVideoEvent
  event_vq : List VirtQueueElem
  transmitted : List VirtIOVideoEvent

/-- `virtio_video_event_complete` (lines 756-787): serialize the event
response into the element; on an `iov_from_buf` shortfall the element is
detached and freed and -1 returned, otherwise the response is pushed and
notified. -/
def virtio_video_event_complete (st : EventDevState) (event : VirtIOVideoEvent)
    (elem : VirtQueueElem) : EventDevState × Int :=
  if elem.in_cap < sizeof_virtio_video_event then (st, -1)
  else ({ st with transmitted := st.transmitted ++ [event] }, 0)

/-- `virtio_video_event_bh` (lines 964-1007): build the event, pop one
element from the event virtqueue; with no usable element (none available,
or `in_num < 1`, or a too-small first in-segment) append the event to the
*tail* of the backlog (an unusable element is detached and freed);
otherwise complete the new event immediately.  The backlog itself is never
consulted on this path. -/
def virtio_video_event_bh (st : EventDevState) (event_type stream_id : Nat) :
    EventDevState :=
  let event : VirtIOVideoEvent := { event_type := event_type, stream_id := stream_id }
  match st.event_vq with
  | [] => { st with event_queue := st.event_queue ++ [event] }
  | elem :: rest =>
    if elem.in_num < 1 ∨ elem.in_cap < sizeof_virtio_video_event then
      { st with event_queue := st.event_queue ++ [event], event_vq := rest }
    else
      (virtio_video_event_complete { st with event_vq := rest } event elem).1

/-! Basic facts about the modelling helpers. -/

/-- Start address of output row `k` of a strided transfer: rows below
`height` come from the primary (luma) buffer at `srcY`, later rows from the
secondary (chroma) buffer at `srcUV`, each row `pitch` bytes after the
previous one.  This is the specification-side description of the source
pointer `virtio_video_memcpy_byline` maintains. -/
def rowStart (srcY srcUV height pitch k : Nat) : Nat :=
  if k < height then srcY + k * pitch else srcUV + (k - height) * pitch

/-- The bytes a strided transfer should deposit for rows `i, i+1, ...,
i+rows-1`: the `width`-byte prefix of each source row — never the padding
between `width` and `pitch`. -/
def rowsBytes (mem : Nat → Nat) (srcY srcUV width height pitch i rows : Nat) : List Nat :=
  ((List.range rows).map fun j =>
    memBytes mem (rowStart srcY srcUV height pitch (i + j)) width).flatten

theorem memBytes_length (m : Nat → Nat) (a n : Nat) : (memBytes m a n).length = n := by
  simp [memBytes]

theorem memBytes_append (m : Nat → Nat) (a n k : Nat) :
    memBytes m a (n + k) = memBytes m a n ++ memBytes m (a + n) k := by
  simp only [memBytes, List.range_add, List.map_append, List.map_map]
  congr 1
  apply List.map_congr_left
  intro j _
  simp [Nat.add_assoc]

theorem splice_zero (s b : List Nat) : splice s 0 b = b ++ s.drop b.length := by
  simp [splice]

theorem length_splice (F b : List Nat) (p : Nat) (h : p + b.length ≤ F.length) :
    (splice F p b).length = F.length := by
  simp only [splice, List.length_append, List.length_take, List.length_drop]
  omega

theorem take_length_append (l r : List Nat) : (l ++ r).take l.length = l := by
  simp

theorem getD_set_self {α : Type} (l : List α) (i : Nat) (x d : α) (h : i < l.length) :
    (l.set i x).getD i d = x := by
  simp [List.getD_eq_getElem?_getD, List.getElem?_set_self, h]

/-! Characterisation lemmas for the per-plane traversals. -/

theorem memcpyPerplaneLoop_code (m : Nat → Nat) :
    ∀ (P : List (List Nat)) (a size : Nat),
      (memcpyPerplaneLoop m a size P).2 =
        if size ≤ P.flatten.length then 0 else -1 := by
  intro P
  induction P with
  | nil =>
    intro a size
    simp only [memcpyPerplaneLoop, List.flatten_nil, List.length_nil]
    by_cases h : 0 < size
    · rw [if_pos h, if_neg (by omega)]
    · rw [if_neg h, if_pos (by omega)]
  | cons s rest ih =>
    intro a size
    simp only [memcpyPerplaneLoop, List.flatten_cons, List.length_append]
    by_cases h : size ≤ s.length
    · rw [if_pos h, if_pos (by omega)]
    · rw [if_neg h]
      simp only [ih]
      by_cases h2 : size - s.length ≤ rest.flatten.length
      · rw [if_pos h2, if_pos (by omega)]
      · rw [if_neg h2, if_neg (by omega)]

theorem memcpyPerplaneRLoop_zero :
    ∀ P : List (List Nat), memcpyPerplaneRLoop 0 P = ([], 0) := by
  intro P
  induction P with
  | nil => simp [memcpyPerplaneRLoop]
  | cons s rest ih =>
    simp only [memcpyPerplaneRLoop]
    by_cases h : s.length ≤ 0
    · have hs : s.length = 0 := by omega
      simp [hs, List.take_of_length_le, ih, List.length_eq_zero.mp hs]
    · simp [if_neg h, ih]

theorem memcpyPerplaneRLoop_code :
    ∀ (P : List (List Nat)) (size : Nat),
      (memcpyPerplaneRLoop size P).2 = if size ≤ P.flatten.length then 0 else -1 := by
  intro P
  induction P with
  | nil =>
    intro size
    simp only [memcpyPerplaneRLoop, List.flatten_nil, List.length_nil]
    by_cases h : 0 < size
    · rw [if_pos h, if_neg (by omega)]
    · rw [if_neg h, if_pos (by omega)]
  | cons s rest ih =>
    intro size
    simp only [memcpyPerplaneRLoop, List.flatten_cons, List.length_append]
    by_cases h : s.length ≤ size
    · rw [if_pos h]
      simp only [ih]
      by_cases h2 : size - s.length ≤ rest.flatten.length
      · rw [if_pos h2, if_pos (by omega)]
      · rw [if_neg h2, if_neg (by omega)]
    · rw [if_neg h]
      simp only [ih]
      rw [if_pos (by omega), if_pos (by omega)]

theorem memcpyPerplane_roundtrip_loop (m : Nat → Nat) :
    ∀ (P : List (List Nat)) (a size : Nat), size ≤ P.flatten.length →
      ∃ P2, memcpyPerplaneLoop m a size P = (P2, 0) ∧
        memcpyPerplaneRLoop size P2 = (memBytes m a size, 0) := by
  intro P
  induction P with
  | nil =>
    intro a size h
    simp only [List.flatten_nil, List.length_nil, Nat.le_zero] at h
    subst h
    exact ⟨[], by simp [memcpyPerplaneLoop], by simp [memcpyPerplaneRLoop, memBytes]⟩
  | cons s rest ih =>
    intro a size h
    simp only [List.flatten_cons, List.length_append] at h
    by_cases hs : size ≤ s.length
    · refine ⟨splice s 0 (memBytes m a size) :: rest, ?_, ?_⟩
      · simp [memcpyPerplaneLoop, hs]
      · have hlen : (splice s 0 (memBytes m a size)).length = s.length := by
          rw [length_splice]
          simpa [memBytes_length] using hs
        have hcur : (if (splice s 0 (memBytes m a size)).length ≤ size then
            (splice s 0 (memBytes m a size)).length else size) = size := by
          rw [hlen]
          by_cases he : s.length ≤ size
          · rw [if_pos he]; omega
          · rw [if_neg he]
        simp only [memcpyPerplaneRLoop, hcur, Nat.sub_self, memcpyPerplaneRLoop_zero]
        rw [splice_zero, memBytes_length]
        rw [List.take_append_of_le_length (by rw [memBytes_length])]
        simp [List.take_of_length_le, memBytes_length]
    · have hrec := ih (a + s.length) (size - s.length) (by omega)
      obtain ⟨P2, hw, hr⟩ := hrec
      refine ⟨splice s 0 (memBytes m a s.length) :: P2, ?_, ?_⟩
      · simp [memcpyPerplaneLoop, hs, hw]
      · have hfull : splice s 0 (memBytes m a s.length) = memBytes m a s.length := by
          rw [splice_zero, memBytes_length]
          simp
        have hlen2 : (splice s 0 (memBytes m a s.length)).length = s.length := by
          rw [hfull, memBytes_length]
        have hcur : (if (splice s 0 (memBytes m a s.length)).length ≤ size then
            (splice s 0 (memBytes m a s.length)).length else size) = s.length := by
          rw [hlen2, if_pos (by omega)]
        simp only [memcpyPerplaneRLoop, hcur, hr]
        rw [hfull, List.take_of_length_le (by rw [memBytes_length])]
        have hsz : s.length + (size - s.length) = size := by omega
        rw [← memBytes_append, hsz]

theorem memdumpPerplaneLoop_code :
    ∀ (P : List (List Nat)) (size : Nat), (memdumpPerplaneLoop size P).2 = 0 := by
  intro P
  induction P with
  | nil => intro size; simp [memdumpPerplaneLoop]
  | cons s rest ih =>
    intro size
    simp only [memdumpPerplaneLoop]
    by_cases h : size ≤ s.length
    · simp [h]
    · simp [h, ih]

theorem memdumpPerplaneLoop_bytes :
    ∀ (P : List (List Nat)) (size : Nat),
      (memdumpPerplaneLoop size P).1 = (memcpyPerplaneRLoop size P).1 := by
  intro P
  induction P with
  | nil => intro size; simp [memdumpPerplaneLoop, memcpyPerplaneRLoop]
  | cons s rest ih =>
    intro size
    simp only [memdumpPerplaneLoop, memcpyPerplaneRLoop]
    by_cases h : size ≤ s.length
    · rw [if_pos h]
      by_cases he : s.length ≤ size
      · have : s.length = size := by omega
        simp [this, memcpyPerplaneRLoop_zero]
      · simp [if_neg he, memcpyPerplaneRLoop_zero]
    · rw [if_neg h, if_pos (by omega)]
      simp [List.take_of_length_le, ih]

/-- Dispatch of `virtio_video_memcpy` on a PER_PLANE resource. -/
theorem memcpy_dispatch_perplane (res : VirtIOVideoResource) (idx : Nat)
    (m : Nat → Nat) (a size : Nat)
    (hlay : res.planes_layout = VIRTIO_VIDEO_PLANES_LAYOUT_PER_PLANE) :
    virtio_video_memcpy res idx m a size =
      some (virtio_video_memcpy_perplane res idx m a size) := by
  unfold virtio_video_memcpy
  rw [if_neg (by rw [hlay]; decide), if_pos hlay]

/-- Dispatch of `virtio_video_memcpy_r` on a PER_PLANE resource. -/
theorem memcpy_r_dispatch_perplane (res : VirtIOVideoResource) (idx size : Nat)
    (hlay : res.planes_layout = VIRTIO_VIDEO_PLANES_LAYOUT_PER_PLANE) :
    virtio_video_memcpy_r res idx size = virtio_video_memcpy_perplane_r res idx size := by
  unfold virtio_video_memcpy_r
  rw [if_neg (by rw [hlay]; decide), if_pos hlay]

/-- Dispatch of `virtio_video_memdump` on a PER_PLANE resource. -/
theorem memdump_dispatch_perplane (res : VirtIOVideoResource) (idx size : Nat)
    (hlay : res.planes_layout = VIRTIO_VIDEO_PLANES_LAYOUT_PER_PLANE) :
    virtio_video_memdump res idx size = virtio_video_memdump_perplane res idx size := by
  unfold virtio_video_memdump
  rw [if_neg (by rw [hlay]; decide), if_pos hlay]

/-- C1: for a PER_PLANE resource whose plane `idx` slices total `L` bytes,
`virtio_video_memcpy` (dispatching to `virtio_video_memcpy_perplane`)
returns 0 iff `size ≤ L`; in particular `size = L` succeeds and
`size = L + 1` returns the negative code -1 instead of silently
truncating. -/
theorem perplane_write_succeeds_iff_capacity
    (res : VirtIOVideoResource) (idx : Nat) (m : Nat → Nat) (a size : Nat)
    (hlay : res.planes_layout = VIRTIO_VIDEO_PLANES_LAYOUT_PER_PLANE)
    (hidx : idx < res.slices.length) :
    ∃ res2, virtio_video_memcpy res idx m a size =
      some (res2, if size ≤ (res.slices.getD idx []).flatten.length then 0 else -1) := by
  have _ := hidx
  refine ⟨(virtio_video_memcpy_perplane res idx m a size).1, ?_⟩
  rw [memcpy_dispatch_perplane res idx m a size hlay]
  have hc : (virtio_video_memcpy_perplane res idx m a size).2 =
      if size ≤ (res.slices.getD idx []).flatten.length then 0 else -1 := by
    simp only [virtio_video_memcpy_perplane, memcpyPerplaneLoop_code]
  rw [← hc]

theorem perplane_write_succeeds_iff_capacity_witness :
    (VirtIOVideoResource.mk 2 [0] [[[1, 2, 3, 4, 5], [6, 7, 8, 9], [10, 11, 12]]] none).planes_layout
        = VIRTIO_VIDEO_PLANES_LAYOUT_PER_PLANE ∧
    0 < (VirtIOVideoResource.mk 2 [0] [[[1, 2, 3, 4, 5], [6, 7, 8, 9], [10, 11, 12]]] none).slices.length ∧
    (∃ res2, virtio_video_memcpy
        (VirtIOVideoResource.mk 2 [0] [[[1, 2, 3, 4, 5], [6, 7, 8, 9], [10, 11, 12]]] none)
        0 (fun j => j) 0 13 = some (res2, -1)) := by
  refine ⟨rfl, by decide, ?_⟩
  obtain ⟨res2, h⟩ := perplane_write_succeeds_iff_capacity
    (VirtIOVideoResource.mk 2 [0] [[[1, 2, 3, 4, 5], [6, 7, 8, 9], [10, 11, 12]]] none)
    0 (fun j => j) 0 13 rfl (by decide)
  refine ⟨res2, ?_⟩
  rw [h]
  norm_num

/-- C2: for a PER_PLANE resource, any slice partition of the plane and any
`size ≤ L`, a successful write through `virtio_video_memcpy` followed by a
read of the same `size` through `virtio_video_memcpy_r` (dispatching to
`virtio_video_memcpy_perplane_r`) reproduces the source bytes exactly. -/
theorem perplane_write_read_roundtrip
    (res : VirtIOVideoResource) (idx : Nat) (m : Nat → Nat) (a size : Nat)
    (hlay : res.planes_layout = VIRTIO_VIDEO_PLANES_LAYOUT_PER_PLANE)
    (hidx : idx < res.slices.length)
    (hsize : size ≤ (res.slices.getD idx []).flatten.length) :
    ∃ res2, virtio_video_memcpy res idx m a size = some (res2, 0) ∧
      virtio_video_memcpy_r res2 idx size = (memBytes m a size, 0) := by
  obtain ⟨P2, hw, hr⟩ :=
    memcpyPerplane_roundtrip_loop m (res.slices.getD idx []) a size hsize
  refine ⟨{ res with slices := res.slices.set idx P2 }, ?_, ?_⟩
  · rw [memcpy_dispatch_perplane res idx m a size hlay]
    simp only [virtio_video_memcpy_perplane, hw]
  · rw [memcpy_r_dispatch_perplane { res with slices := res.slices.set idx P2 } idx size hlay]
    simp only [virtio_video_memcpy_perplane_r]
    rw [getD_set_self res.slices idx P2 [] hidx]
    exact hr

theorem perplane_write_read_roundtrip_witness :
    (VirtIOVideoResource.mk 2 [0] [[[1, 2, 3, 4, 5], [6, 7, 8, 9], [10, 11, 12]]] none).planes_layout
        = VIRTIO_VIDEO_PLANES_LAYOUT_PER_PLANE ∧
    0 < (VirtIOVideoResource.mk 2 [0] [[[1, 2, 3, 4, 5], [6, 7, 8, 9], [10, 11, 12]]] none).slices.length ∧
    8 ≤ ((VirtIOVideoResource.mk 2 [0] [[[1, 2, 3, 4, 5], [6, 7, 8, 9], [10, 11, 12]]] none).slices.getD 0 []).flatten.length ∧
    (∃ res2, virtio_video_memcpy
        (VirtIOVideoResource.mk 2 [0] [[[1, 2, 3, 4, 5], [6, 7, 8, 9], [10, 11, 12]]] none)
        0 (fun j => 100 + j) 0 8 = some (res2, 0) ∧
      virtio_video_memcpy_r res2 0 8 = (memBytes (fun j => 100 + j) 0 8, 0)) :=
  ⟨rfl, by decide, by decide,
    perplane_write_read_roundtrip
      (VirtIOVideoResource.mk 2 [0] [[[1, 2, 3, 4, 5], [6, 7, 8, 9], [10, 11, 12]]] none)
      0 (fun j => 100 + j) 0 8 rfl (by decide) (by decide)⟩

/-- C9: for a PER_PLANE resource, the tolerant dump `virtio_video_memdump`
(dispatching to `virtio_video_memdump_perplane`) produces exactly the bytes
the strict read `virtio_video_memcpy_r` would produce, yet always returns
0, while the strict read returns -1 whenever the slice sequence is
exhausted with bytes remaining. -/
theorem memdump_perplane_tolerant_matches_read
    (res : VirtIOVideoResource) (idx size : Nat)
    (hlay : res.planes_layout = VIRTIO_VIDEO_PLANES_LAYOUT_PER_PLANE)
    (hidx : idx < res.slices.length) :
    virtio_video_memdump res idx size = ((virtio_video_memcpy_r res idx size).1, 0) ∧
    ((res.slices.getD idx []).flatten.length < size →
      (virtio_video_memcpy_r res idx size).2 = -1) := by
  have _ := hidx
  constructor
  · rw [memdump_dispatch_perplane res idx size hlay, memcpy_r_dispatch_perplane res idx size hlay]
    simp only [virtio_video_memdump_perplane, virtio_video_memcpy_perplane_r]
    exact Prod.ext (memdumpPerplaneLoop_bytes _ size) (memdumpPerplaneLoop_code _ size)
  · intro h
    rw [memcpy_r_dispatch_perplane res idx size hlay]
    simp only [virtio_video_memcpy_perplane_r]
    rw [memcpyPerplaneRLoop_code, if_neg (by omega)]

theorem memdump_perplane_tolerant_matches_read_witness :
    (VirtIOVideoResource.mk 2 [0] [[[1, 2, 3, 4, 5], [6, 7, 8, 9], [10, 11, 12]]] none).planes_layout
        = VIRTIO_VIDEO_PLANES_LAYOUT_PER_PLANE ∧
    0 < (VirtIOVideoResource.mk 2 [0] [[[1, 2, 3, 4, 5], [6, 7, 8, 9], [10, 11, 12]]] none).slices.length ∧
    (virtio_video_memdump
        (VirtIOVideoResource.mk 2 [0] [[[1, 2, 3, 4, 5], [6, 7, 8, 9], [10, 11, 12]]] none) 0 13
      = ((virtio_video_memcpy_r
        (VirtIOVideoResource.mk 2 [0] [[[1, 2, 3, 4, 5], [6, 7, 8, 9], [10, 11, 12]]] none) 0 13).1, 0) ∧
    (((VirtIOVideoResource.mk 2 [0] [[[1, 2, 3, 4, 5], [6, 7, 8, 9], [10, 11, 12]]] none).slices.getD 0 []).flatten.length < 13 →
      (virtio_video_memcpy_r
        (VirtIOVideoResource.mk 2 [0] [[[1, 2, 3, 4, 5], [6, 7, 8, 9], [10, 11, 12]]] none) 0 13).2 = -1)) :=
  ⟨rfl, by decide,
    memdump_perplane_tolerant_matches_read
      (VirtIOVideoResource.mk 2 [0] [[[1, 2, 3, 4, 5], [6, 7, 8, 9], [10, 11, 12]]] none)
      0 13 rfl (by decide)⟩

/-- C3 (code bug): `virtio_video_memcpy_r` on a SINGLE_BUFFER resource with
one 2-byte slice and `size = 3`: the slice sequence is exhausted with one
byte remaining, yet `virtio_video_memcpy_singlebuffer_r` returns 0
(success) with only the 2 available bytes — the exhaustion rule of the
write/`perplane_r` family (`if (size > 0) return -1;`) is missing from this
function. -/
theorem singlebuffer_read_ignores_exhaustion_eval :
    virtio_video_memcpy_r (VirtIOVideoResource.mk 1 [0] [[[10, 20]]] none) 0 3
      = ([10, 20], 0) := by
  decide

/-- C10: whenever `remapped_base` is set, the single-buffer write copies
all `size` bytes into the remapped region and returns 0 for every requested
`size` — there is no capacity check against the remapped length, the -1
path is unreachable, and the slice lists are untouched. -/
theorem remapped_fast_path_always_succeeds
    (res : VirtIOVideoResource) (idx : Nat) (m : Nat → Nat) (a size : Nat)
    (buf : List Nat) (hbuf : res.remapped_base = some buf) :
    virtio_video_memcpy_singlebuffer res idx m a size =
      some ({ res with remapped_base := some (splice buf 0 (memBytes m a size)) }, 0) ∧
    ({ res with remapped_base := some (splice buf 0 (memBytes m a size)) }
        : VirtIOVideoResource).slices = res.slices ∧
    (splice buf 0 (memBytes m a size)).take size = memBytes m a size := by
  refine ⟨?_, rfl, ?_⟩
  · unfold virtio_video_memcpy_singlebuffer
    rw [hbuf]
  · rw [splice_zero]
    have h2 := take_length_append (memBytes m a size) (buf.drop (memBytes m a size).length)
    rw [memBytes_length] at h2
    rw [memBytes_length]
    exact h2

theorem remapped_fast_path_always_succeeds_witness :
    (VirtIOVideoResource.mk 1 [0] [[[1, 2]]] (some [9, 9])).remapped_base = some [9, 9] ∧
    (virtio_video_memcpy_singlebuffer (VirtIOVideoResource.mk 1 [0] [[[1, 2]]] (some [9, 9]))
        0 (fun j => 50 + j) 0 5 =
      some (VirtIOVideoResource.mk 1 [0] [[[1, 2]]]
        (some (splice [9, 9] 0 (memBytes (fun j => 50 + j) 0 5))), 0) ∧
      (VirtIOVideoResource.mk 1 [0] [[[1, 2]]]
        (some (splice [9, 9] 0 (memBytes (fun j => 50 + j) 0 5)))).slices
          = (VirtIOVideoResource.mk 1 [0] [[[1, 2]]] (some [9, 9])).slices ∧
      (splice [9, 9] 0 (memBytes (fun j => 50 + j) 0 5)).take 5
          = memBytes (fun j => 50 + j) 0 5) :=
  ⟨rfl, remapped_fast_path_always_succeeds
    (VirtIOVideoResource.mk 1 [0] [[[1, 2]]] (some [9, 9]))
    0 (fun j => 50 + j) 0 5 [9, 9] rfl⟩

/-- C5 (code bug): `virtio_video_cmd_others_complete` releases the device
reference zero times on its early-return path (the reply element cannot
hold the response header), and exactly once on the success path — the
`object_unref` at the end of the function is skipped by the early
`return` inside the `iov_from_buf` error branch. -/
theorem cmd_others_complete_unref_leak_eval :
    (virtio_video_cmd_others_complete
      (CmdBhArg.mk (VirtIOVideoCmd.mk 5 (VirtQueueElem.mk 42 1 4)) 7) true).unrefs = 0 ∧
    (virtio_video_cmd_others_complete
      (CmdBhArg.mk (VirtIOVideoCmd.mk 5 (VirtQueueElem.mk 42 1 8)) 7) true).unrefs = 1 := by
  decide

/-- C4 counterexample: with stream 7 holding in-flight command 3 (reply
element 42, 100 usable bytes), calling `virtio_video_inflight_cmd_done`
twice in a row — the slot already cleared (`cmd_type = 0`) after the first
call — is not rejected: two completion bottom halves are scheduled, and
running them transmits two responses.  The claim that the second resolution
is rejected and never double-sends is false. -/
theorem inflight_cmd_done_twice_double_send_cex :
    ((virtio_video_inflight_cmd_done
        (VirtIOVideoStream.mk 7 (VirtIOVideoCmd.mk 3 (VirtQueueElem.mk 42 1 100)))
        (SchedState.mk [] 0)).1).inflight_cmd.cmd_type = 0 ∧
    ((virtio_video_inflight_cmd_done
        (virtio_video_inflight_cmd_done
          (VirtIOVideoStream.mk 7 (VirtIOVideoCmd.mk 3 (VirtQueueElem.mk 42 1 100)))
          (SchedState.mk [] 0)).1
        (virtio_video_inflight_cmd_done
          (VirtIOVideoStream.mk 7 (VirtIOVideoCmd.mk 3 (VirtQueueElem.mk 42 1 100)))
          (SchedState.mk [] 0)).2).2).pending.length = 2 ∧
    (runCmdBhs ((virtio_video_inflight_cmd_done
        (virtio_video_inflight_cmd_done
          (VirtIOVideoStream.mk 7 (VirtIOVideoCmd.mk 3 (VirtQueueElem.mk 42 1 100)))
          (SchedState.mk [] 0)).1
        (virtio_video_inflight_cmd_done
          (VirtIOVideoStream.mk 7 (VirtIOVideoCmd.mk 3 (VirtQueueElem.mk 42 1 100)))
          (SchedState.mk [] 0)).2).2).pending).length = 2 := by
  refine ⟨rfl, rfl, rfl⟩

/-- C4 as amended: a second resolution of the same stream's in-flight
command is not rejected — `virtio_video_inflight_cmd_done` unconditionally
snapshots the (already cleared) slot, reusing the stale reply-element
handle, and schedules another completion bottom half; whenever that
element can hold the header, the bottom half builds and transmits a second
OK-no-data response.  At-most-once resolution is the callers'
responsibility, not enforced here. -/
theorem inflight_cmd_done_twice_not_rejected
    (stream : VirtIOVideoStream) (sched : SchedState) :
    ((virtio_video_inflight_cmd_done
        (virtio_video_inflight_cmd_done stream sched).1
        (virtio_video_inflight_cmd_done stream sched).2).2).pending =
      sched.pending ++
        [(CmdBhArg.mk stream.inflight_cmd stream.id, true),
         (CmdBhArg.mk (VirtIOVideoCmd.mk 0 stream.inflight_cmd.elem) stream.id, true)] ∧
    (stream.inflight_cmd.elem.in_num ≠ 0 →
      sizeof_virtio_video_cmd_hdr ≤ stream.inflight_cmd.elem.in_cap →
      (virtio_video_cmd_others_complete
          (CmdBhArg.mk (VirtIOVideoCmd.mk 0 stream.inflight_cmd.elem) stream.id)
          true).transmitted =
        [virtio_video_cmd_hdr.mk VIRTIO_VIDEO_RESP_OK_NODATA stream.id]) := by
  constructor
  · simp [virtio_video_inflight_cmd_done]
  · intro h1 h2
    have hcond : ¬((CmdBhArg.mk (VirtIOVideoCmd.mk 0 stream.inflight_cmd.elem)
          stream.id).cmd.elem.in_num = 0 ∨
        (CmdBhArg.mk (VirtIOVideoCmd.mk 0 stream.inflight_cmd.elem)
          stream.id).cmd.elem.in_cap < sizeof_virtio_video_cmd_hdr) := by
      intro hor
      rcases hor with h0 | hlt
      · exact h1 h0
      · exact absurd hlt (Nat.not_lt.mpr h2)
    unfold virtio_video_cmd_others_complete
    rw [if_neg hcond]
    rfl

theorem inflight_cmd_done_twice_not_rejected_witness :
    ((virtio_video_inflight_cmd_done
        (virtio_video_inflight_cmd_done
          (VirtIOVideoStream.mk 9 (VirtIOVideoCmd.mk 4 (VirtQueueElem.mk 13 1 64)))
          (SchedState.mk [] 0)).1
        (virtio_video_inflight_cmd_done
          (VirtIOVideoStream.mk 9 (VirtIOVideoCmd.mk 4 (VirtQueueElem.mk 13 1 64)))
          (SchedState.mk [] 0)).2).2).pending =
      [(CmdBhArg.mk (VirtIOVideoCmd.mk 4 (VirtQueueElem.mk 13 1 64)) 9, true),
       (CmdBhArg.mk (VirtIOVideoCmd.mk 0 (VirtQueueElem.mk 13 1 64)) 9, true)] ∧
    (virtio_video_cmd_others_complete
        (CmdBhArg.mk (VirtIOVideoCmd.mk 0 (VirtQueueElem.mk 13 1 64)) 9) true).transmitted =
      [virtio_video_cmd_hdr.mk VIRTIO_VIDEO_RESP_OK_NODATA 9] := by
  have h := inflight_cmd_done_twice_not_rejected
    (VirtIOVideoStream.mk 9 (VirtIOVideoCmd.mk 4 (VirtQueueElem.mk 13 1 64)))
    (SchedState.mk [] 0)
  exact ⟨h.1, h.2 (by decide) (by decide)⟩

/-- C8 counterexample: with event (1, 11) already on the backlog and a
usable reply element available, reporting event (2, 22) transmits the new
event immediately and leaves the backlog untouched — the earlier backlogged
event is neither serviced nor released, so the later event is delivered
before it. -/
theorem event_bh_overtakes_backlog_cex :
    (virtio_video_event_bh
        (EventDevState.mk [VirtIOVideoEvent.mk 1 11] [VirtQueueElem.mk 5 1 8] [])
        2 22).transmitted = [VirtIOVideoEvent.mk 2 22] ∧
    (virtio_video_event_bh
        (EventDevState.mk [VirtIOVideoEvent.mk 1 11] [VirtQueueElem.mk 5 1 8] [])
        2 22).event_queue = [VirtIOVideoEvent.mk 1 11] := by
  refine ⟨rfl, rfl⟩

/-- C8 as amended: `virtio_video_event_bh` either appends the new event to
the tail of the pending backlog (when no element is available or the popped
element is unusable), leaving the transmission log unchanged, or transmits
the new event immediately, leaving the backlog unchanged.  The backlog is
never consulted on the transmit path, so an earlier backlogged event is not
delivered or released before a later event that finds a free slot. -/
theorem event_bh_append_or_transmit_new (st : EventDevState) (et sid : Nat) :
    ((virtio_video_event_bh st et sid).event_queue
        = st.event_queue ++ [VirtIOVideoEvent.mk et sid] ∧
      (virtio_video_event_bh st et sid).transmitted = st.transmitted) ∨
    ((virtio_video_event_bh st et sid).event_queue = st.event_queue ∧
      (virtio_video_event_bh st et sid).transmitted
        = st.transmitted ++ [VirtIOVideoEvent.mk et sid]) := by
  obtain ⟨q, vq, t⟩ := st
  cases vq with
  | nil => exact Or.inl ⟨rfl, rfl⟩
  | cons elem rest =>
    by_cases hc : elem.in_num < 1 ∨ elem.in_cap < sizeof_virtio_video_event
    · have hbh : virtio_video_event_bh (EventDevState.mk q (elem :: rest) t) et sid =
          EventDevState.mk (q ++ [VirtIOVideoEvent.mk et sid]) rest t := by
        show (if elem.in_num < 1 ∨ elem.in_cap < sizeof_virtio_video_event then
            EventDevState.mk (q ++ [VirtIOVideoEvent.mk et sid]) rest t
          else
            (virtio_video_event_complete (EventDevState.mk q rest t)
              (VirtIOVideoEvent.mk et sid) elem).1) =
          EventDevState.mk (q ++ [VirtIOVideoEvent.mk et sid]) rest t
        rw [if_pos hc]
      rw [hbh]
      exact Or.inl ⟨rfl, rfl⟩
    · have hbh : virtio_video_event_bh (EventDevState.mk q (elem :: rest) t) et sid =
          EventDevState.mk q rest (t ++ [VirtIOVideoEvent.mk et sid]) := by
        show (if elem.in_num < 1 ∨ elem.in_cap < sizeof_virtio_video_event then
            EventDevState.mk (q ++ [VirtIOVideoEvent.mk et sid]) rest t
          else
            (virtio_video_event_complete (EventDevState.mk q rest t)
              (VirtIOVideoEvent.mk et sid) elem).1) =
          EventDevState.mk q rest (t ++ [VirtIOVideoEvent.mk et sid])
        rw [if_neg hc]
        unfold virtio_video_event_complete
        rw [if_neg (fun hlt => hc (Or.inr hlt))]
      rw [hbh]
      exact Or.inr ⟨rfl, rfl⟩

theorem take_append_of_le (l r : List Nat) (n : Nat) (h : n ≤ l.length) :
    (l ++ r).take n = l.take n := by
  rw [List.take_append_eq_append_take, Nat.sub_eq_zero_of_le h, List.take_zero,
    List.append_nil]

theorem splice_take_of_le (F b : List Nat) (p n : Nat) (hn : n ≤ p) (hp : p ≤ F.length) :
    (splice F p b).take n = F.take n := by
  unfold splice
  rw [take_append_of_le (F.take p ++ b) _ n
    (by rw [List.length_append, List.length_take]; omega)]
  rw [take_append_of_le (F.take p) b n (by rw [List.length_take]; omega)]
  rw [List.take_take, Nat.min_eq_left hn]

/-- The single-buffer write loop, on overflow-free inputs: it always
produces a result, the flattened slice contents before the cumulative
offset `begin_ - base` are untouched, the total length is preserved, and
the result code is 0 whenever the shared sequence has room for the
request. -/
theorem memcpySinglebufferLoop_prefix (m : Nat → Nat) :
    ∀ (P : List (List Nat)) (size begin_ base a : Nat),
      base + P.flatten.length < U32 →
      begin_ + size < U32 →
      base ≤ begin_ →
      ∃ P2 r, memcpySinglebufferLoop m (begin_ + size) size begin_ base a P = some (P2, r) ∧
        P2.flatten.take (begin_ - base) = P.flatten.take (begin_ - base) ∧
        P2.flatten.length = P.flatten.length ∧
        (begin_ - base + size ≤ P.flatten.length → r = 0) := by
  intro P
  induction P with
  | nil =>
    intro size begin_ base a h1 h2 h3
    refine ⟨[], if 0 < size then -1 else 0, rfl, rfl, rfl, ?_⟩
    intro hcap
    simp only [List.flatten_nil, List.length_nil] at hcap
    have hz : size = 0 := by omega
    simp [hz]
  | cons s rest ih =>
    intro size begin_ base a h1 h2 h3
    have hflat : (s :: rest).flatten.length = s.length + rest.flatten.length := by
      simp [List.flatten_cons]
    have hmod1 : (base + s.length) % U32 = base + s.length :=
      Nat.mod_eq_of_lt (by rw [hflat] at h1; omega)
    by_cases hskipm : (base + s.length) % U32 ≤ begin_
    · -- the slice ends at or before begin_: skipped untouched
      have hskip : base + s.length ≤ begin_ := by rwa [hmod1] at hskipm
      obtain ⟨P2r, r, heq, hpre, hlen, hsucc⟩ :=
        ih size begin_ (base + s.length) a (by rw [hflat] at h1; omega) h2 hskip
      refine ⟨s :: P2r, r, ?_, ?_, ?_, ?_⟩
      · simp only [memcpySinglebufferLoop]
        rw [if_pos hskipm, hmod1, heq]
      · simp only [List.flatten_cons]
        rw [List.take_append_eq_append_take, List.take_append_eq_append_take]
        have hsub : begin_ - base - s.length = begin_ - (base + s.length) := by omega
        rw [hsub, hpre]
      · simp only [List.flatten_cons, List.length_append, hlen]
      · intro hcap
        rw [hflat] at hcap
        exact hsucc (by omega)
    · -- begin_ falls inside this slice
      have hlt : begin_ < base + s.length := by
        rw [hmod1] at hskipm; omega
      by_cases hthenm : begin_ + size ≤ (base + s.length) % U32
      · -- the whole remaining request fits in this slice
        have hthen : begin_ + size ≤ base + s.length := by rwa [hmod1] at hthenm
        refine ⟨splice s (begin_ - base) (memBytes m a size) :: rest, 0, ?_, ?_, ?_, ?_⟩
        · simp only [memcpySinglebufferLoop]
          rw [if_neg hskipm, if_pos hthenm]
          simp only [writeAtO, memBytes_length]
          rw [if_pos (by omega)]
        · simp only [List.flatten_cons]
          rw [take_append_of_le _ _ _ (by rw [length_splice _ _ _ (by rw [memBytes_length]; omega)]; omega),
            take_append_of_le _ _ _ (by omega),
            splice_take_of_le _ _ _ _ (le_refl _) (by omega)]
        · have hsl := length_splice s (memBytes m a size) (begin_ - base)
            (by rw [memBytes_length]; omega)
          simp only [List.flatten_cons, List.length_append, hsl]
        · intro _
          rfl
      · -- the request spills into the following slices
        have hgt : base + s.length < begin_ + size := by
          rw [hmod1] at hthenm; omega
        have hlen_le : s.length - (begin_ - base) ≤ size := by omega
        have hble : begin_ + (s.length - (begin_ - base)) = base + s.length := by omega
        have hszeq : base + s.length + (size - (s.length - (begin_ - base))) =
            begin_ + size := by omega
        obtain ⟨P2r, r, heq, hpre, hlen, hsucc⟩ :=
          ih (size - (s.length - (begin_ - base))) (base + s.length) (base + s.length)
            (a + (s.length - (begin_ - base)))
            (by rw [hflat] at h1; omega) (by omega) (le_refl _)
        rw [hszeq] at heq
        refine ⟨splice s (begin_ - base) (memBytes m a (s.length - (begin_ - base))) :: P2r,
          r, ?_, ?_, ?_, ?_⟩
        · simp only [memcpySinglebufferLoop]
          rw [if_neg hskipm, if_neg hthenm]
          simp only [writeAtO, memBytes_length]
          rw [if_pos (by omega), hble, hmod1, heq]
        · simp only [List.flatten_cons]
          rw [take_append_of_le _ _ _
              (by rw [length_splice _ _ _ (by rw [memBytes_length]; omega)]; omega),
            take_append_of_le _ _ _ (by omega),
            splice_take_of_le _ _ _ _ (le_refl _) (by omega)]
        · have hsl := length_splice s (memBytes m a (s.length - (begin_ - base)))
            (begin_ - base) (by rw [memBytes_length]; omega)
          simp only [List.flatten_cons, List.length_append, hsl, hlen]
        · intro hcap
          rw [hflat] at hcap
          exact hsucc (by omega)

/-- C7: for a SINGLE_BUFFER resource with per-plane offset `k`
(`plane_offsets[idx]`), a write of any size with `k + size < L` leaves
every byte of the shared slice sequence at cumulative offsets before `k`
unchanged (slices entirely before `k` are skipped; in the first touched
slice only bytes at or after `k - base` are written), and succeeds. -/
theorem singlebuffer_write_preserves_before_offset
    (res : VirtIOVideoResource) (idx : Nat) (m : Nat → Nat) (a size : Nat)
    (hlay : res.planes_layout = VIRTIO_VIDEO_PLANES_LAYOUT_SINGLE_BUFFER)
    (hidx : idx < res.plane_offsets.length)
    (hcap : res.plane_offsets.getD idx 0 + size < (res.slices.getD 0 []).flatten.length)
    (hsmall : (res.slices.getD 0 []).flatten.length < U32) :
    ∃ res2, virtio_video_memcpy res idx m a size = some (res2, 0) ∧
      (res2.slices.getD 0 []).flatten.take (res.plane_offsets.getD idx 0) =
        (res.slices.getD 0 []).flatten.take (res.plane_offsets.getD idx 0) ∧
      (res2.slices.getD 0 []).flatten.length = (res.slices.getD 0 []).flatten.length := by
  have _ := hidx
  have hdisp : virtio_video_memcpy res idx m a size =
      virtio_video_memcpy_singlebuffer res idx m a size := by
    unfold virtio_video_memcpy
    rw [if_pos hlay]
  rw [hdisp]
  cases hrem : res.remapped_base with
  | some buf =>
    refine ⟨{ res with remapped_base := some (splice buf 0 (memBytes m a size)) },
      ?_, rfl, rfl⟩
    unfold virtio_video_memcpy_singlebuffer
    rw [hrem]
  | none =>
    have h0 : 0 < res.slices.length := by
      by_contra h0
      have hnil : res.slices = [] := by
        cases hsl : res.slices with
        | nil => rfl
        | cons x xs => rw [hsl] at h0; simp at h0
      rw [hnil] at hcap
      simp at hcap
    obtain ⟨P2, r, heq, hpre, hlen, hsucc⟩ :=
      memcpySinglebufferLoop_prefix m (res.slices.getD 0 [])
        size (res.plane_offsets.getD idx 0) 0 a (by omega) (by omega) (Nat.zero_le _)
    have hr0 : r = 0 := hsucc (by omega)
    rw [hr0] at heq
    refine ⟨{ res with slices := res.slices.set 0 P2 }, ?_, ?_, ?_⟩
    · unfold virtio_video_memcpy_singlebuffer
      rw [hrem]
      have hmod : (res.plane_offsets.getD idx 0 + size) % U32 =
          res.plane_offsets.getD idx 0 + size := Nat.mod_eq_of_lt (by omega)
      simp only [hmod, heq]
    · rw [getD_set_self res.slices 0 P2 [] h0]
      simpa using hpre
    · rw [getD_set_self res.slices 0 P2 [] h0]
      exact hlen

theorem singlebuffer_write_preserves_before_offset_witness :
    (VirtIOVideoResource.mk 1 [0, 4] [[[1, 2, 3], [4, 5, 6], [7, 8, 9]]] none).planes_layout
        = VIRTIO_VIDEO_PLANES_LAYOUT_SINGLE_BUFFER ∧
    1 < (VirtIOVideoResource.mk 1 [0, 4] [[[1, 2, 3], [4, 5, 6], [7, 8, 9]]] none).plane_offsets.length ∧
    (VirtIOVideoResource.mk 1 [0, 4] [[[1, 2, 3], [4, 5, 6], [7, 8, 9]]] none).plane_offsets.getD 1 0 + 3
      < ((VirtIOVideoResource.mk 1 [0, 4] [[[1, 2, 3], [4, 5, 6], [7, 8, 9]]] none).slices.getD 0 []).flatten.length ∧
    ((VirtIOVideoResource.mk 1 [0, 4] [[[1, 2, 3], [4, 5, 6], [7, 8, 9]]] none).slices.getD 0 []).flatten.length < U32 ∧
    (∃ res2, virtio_video_memcpy
        (VirtIOVideoResource.mk 1 [0, 4] [[[1, 2, 3], [4, 5, 6], [7, 8, 9]]] none)
        1 (fun j => 200 + j) 0 3 = some (res2, 0) ∧
      (res2.slices.getD 0 []).flatten.take 4 =
        ((VirtIOVideoResource.mk 1 [0, 4] [[[1, 2, 3], [4, 5, 6], [7, 8, 9]]]
          none).slices.getD 0 []).flatten.take 4 ∧
      (res2.slices.getD 0 []).flatten.length =
        ((VirtIOVideoResource.mk 1 [0, 4] [[[1, 2, 3], [4, 5, 6], [7, 8, 9]]]
          none).slices.getD 0 []).flatten.length) :=
  ⟨rfl, by decide, by decide, by decide,
    singlebuffer_write_preserves_before_offset
      (VirtIOVideoResource.mk 1 [0, 4] [[[1, 2, 3], [4, 5, 6], [7, 8, 9]]] none)
      1 (fun j => 200 + j) 0 3 rfl (by decide) (by decide) (by decide)⟩

theorem wsub_exact (a b : Nat) (hb : b ≤ a) (ha : a < U32) : wsub a b = a - b := by
  have hU : U32 = 4294967296 := rfl
  unfold wsub
  rw [Nat.mod_eq_of_lt (show b < U32 by omega)]
  rw [show a + (U32 - b) = (a - b) + U32 by omega, Nat.add_mod_right]
  exact Nat.mod_eq_of_lt (by omega)

theorem get?_eq_some_getD {α : Type} (l : List α) (i : Nat) (d : α) (h : i < l.length) :
    l.get? i = some (l.getD i d) := by
  rw [List.get?_eq_getElem?, List.getD_eq_getElem l d h]
  exact List.getElem?_eq_getElem h

theorem take_set_of_le {α : Type} (l : List α) (n : Nat) (a : α) (m : Nat) (h : m ≤ n) :
    (l.set n a).take m = l.take m := by
  rw [List.set_take]
  exact List.set_eq_of_length_le (by rw [List.length_take]; omega)

theorem take_flatten_le (P : List (List Nat)) (n : Nat) :
    (P.take n).flatten.length ≤ P.flatten.length := by
  conv_rhs => rw [← List.take_append_drop n P]
  rw [List.flatten_append, List.length_append]
  omega

theorem take_flatten_lt_length (P : List (List Nat)) (n : Nat)
    (h : (P.take n).flatten.length < P.flatten.length) : n < P.length := by
  by_contra h2
  rw [List.take_of_length_le (by omega)] at h
  omega

theorem flatten_take_succ (P : List (List Nat)) (n : Nat) (h : n < P.length) :
    (P.take (n + 1)).flatten.length = (P.take n).flatten.length + (P.getD n []).length := by
  rw [List.take_succ, List.flatten_append, List.length_append]
  simp [List.getD_eq_getElem?_getD, List.getElem?_eq_getElem h]

theorem drop_append_of_le (l r : List Nat) (n : Nat) (h : n ≤ l.length) :
    (l ++ r).drop n = l.drop n ++ r := by
  rw [List.drop_append_eq_append_drop, Nat.sub_eq_zero_of_le h, List.drop_zero]

theorem take_append_of_ge (l r : List Nat) (n : Nat) (h : l.length ≤ n) :
    (l ++ r).take n = l ++ r.take (n - l.length) := by
  rw [List.take_append_eq_append_take, List.take_of_length_le h]

theorem drop_append_of_ge (l r : List Nat) (n : Nat) (h : l.length ≤ n) :
    (l ++ r).drop n = r.drop (n - l.length) := by
  rw [List.drop_append_eq_append_drop, List.drop_of_length_le h, List.nil_append]

theorem splice_nil (F : List Nat) (p : Nat) : splice F p [] = F := by
  simp [splice]

theorem splice_splice (F b c : List Nat) (p : Nat)
    (h : p + b.length + c.length ≤ F.length) :
    splice (splice F p b) (p + b.length) c = splice F p (b ++ c) := by
  have hp : p ≤ F.length := by omega
  have hlen2 : (F.take p ++ b).length = p + b.length := by
    rw [List.length_append, List.length_take]
    omega
  have htake : (splice F p b).take (p + b.length) = F.take p ++ b := by
    unfold splice
    rw [take_append_of_le _ _ _ (by omega)]
    exact List.take_of_length_le (by omega)
  have hdrop : (splice F p b).drop (p + b.length + c.length) =
      F.drop (p + b.length + c.length) := by
    unfold splice
    rw [List.drop_append_eq_append_drop]
    rw [List.drop_of_length_le (by omega), List.nil_append, hlen2, List.drop_drop]
    congr 1
    omega
  show (splice F p b).take (p + b.length) ++ c ++
      (splice F p b).drop (p + b.length + c.length) = splice F p (b ++ c)
  rw [htake, hdrop]
  unfold splice
  rw [List.length_append]
  rw [show p + (b.length + c.length) = p + b.length + c.length by omega]
  simp [List.append_assoc]

theorem flatten_set_splice :
    ∀ (P : List (List Nat)) (page diff : Nat) (b : List Nat),
      page < P.length → diff + b.length ≤ (P.getD page []).length →
      (P.set page (splice (P.getD page []) diff b)).flatten =
        splice P.flatten ((P.take page).flatten.length + diff) b := by
  intro P
  induction P with
  | nil => intro page diff b h _; simp at h
  | cons s rest ih =>
    intro page diff b hpage hb
    cases page with
    | zero =>
      simp only [List.getD_cons_zero] at hb
      simp only [List.getD_cons_zero, List.set_cons_zero, List.flatten_cons,
        List.take_zero, List.flatten_nil, List.length_nil, Nat.zero_add]
      unfold splice
      rw [take_append_of_le _ _ _ (by omega), drop_append_of_le _ _ _ (by omega)]
      simp [List.append_assoc]
    | succ pg =>
      simp only [List.getD_cons_succ] at hb
      have hpg : pg < rest.length := by simpa using hpage
      simp only [List.getD_cons_succ, List.set_cons_succ, List.flatten_cons,
        List.take_succ_cons]
      rw [ih pg diff b hpg hb]
      rw [List.length_append]
      unfold splice
      rw [take_append_of_ge s rest.flatten _ (by omega)]
      rw [show s.length + (rest.take pg).flatten.length + diff - s.length =
        (rest.take pg).flatten.length + diff by omega]
      rw [drop_append_of_ge s rest.flatten _ (by omega)]
      rw [show s.length + (rest.take pg).flatten.length + diff + b.length - s.length =
        (rest.take pg).flatten.length + diff + b.length by omega]
      simp only [List.append_assoc]

theorem fpos_slice_le (P : List (List Nat)) (page : Nat) (h : page < P.length) :
    (P.take page).flatten.length + (P.getD page []).length ≤ P.flatten.length := by
  have h1 := flatten_take_succ P page h
  have h2 := take_flatten_le P (page + 1)
  omega

theorem bylineWhile_margin_zero (mem : Nat → Nat) (width pitch bound : Nat)
    (P : List (List Nat)) (page diff len src size : Nat) :
    bylineWhile mem width pitch bound P page diff len src size 0 =
      some (P, page, diff, len, src, size) := by
  rw [bylineWhile]
  simp

theorem bylineWhile_step_then (mem : Nat → Nat) (width pitch bound : Nat)
    (P : List (List Nat)) (page diff len src size margin : Nat) (s : List Nat)
    (hm : 0 < margin) (hp : page < bound)
    (hs : P.get? (page + 1) = some s) (hms : margin ≤ s.length) :
    bylineWhile mem width pitch bound P page diff len src size margin =
      bylineWhile mem width pitch bound
        (P.set (page + 1) (splice s 0 (memBytes mem src margin))) (page + 1)
        margin (s.length - margin) (src + (pitch - width + margin)) (wsub size margin) 0 := by
  rw [bylineWhile]
  rw [dif_pos ⟨hm, hp⟩, hs]
  dsimp only
  rw [if_pos hms]
  unfold writeAtO
  rw [if_pos (by simp [memBytes]; omega)]

theorem bylineWhile_step_else (mem : Nat → Nat) (width pitch bound : Nat)
    (P : List (List Nat)) (page diff len src size margin : Nat) (s : List Nat)
    (hm : 0 < margin) (hp : page < bound)
    (hs : P.get? (page + 1) = some s) (hms : ¬ margin ≤ s.length) :
    bylineWhile mem width pitch bound P page diff len src size margin =
      bylineWhile mem width pitch bound
        (P.set (page + 1) (splice s 0 (memBytes mem src s.length))) (page + 1)
        0 s.length (src + s.length) (wsub size s.length) (margin - s.length) := by
  rw [bylineWhile]
  rw [dif_pos ⟨hm, hp⟩, hs]
  dsimp only
  rw [if_neg hms]
  unfold writeAtO
  rw [if_pos (by simp [memBytes])]

/-- The margin-carry `while` loop of `virtio_video_memcpy_byline`, under
sufficient slice capacity: it deposits exactly the `margin` remaining bytes
of the current row into the following slices, leaves the source pointer at
the start of the next row (`R + pitch` for row start `R`), and exits in a
consistent mid-slice state. -/
theorem bylineWhile_spec (mem : Nat → Nat) (width pitch bound : Nat) (hwp : width ≤ pitch) :
    ∀ (fuel : Nat) (P : List (List Nat)) (page diff len src size margin R : Nat),
      bound - page ≤ fuel →
      P.length = bound →
      page < bound →
      0 < margin →
      margin ≤ width →
      src + margin = R + width →
      (P.take (page + 1)).flatten.length + margin ≤ P.flatten.length →
      ∃ P2 page2 diff2 len2 size2,
        bylineWhile mem width pitch bound P page diff len src size margin =
          some (P2, page2, diff2, len2, R + pitch, size2) ∧
        P2.length = bound ∧
        P2.flatten = splice P.flatten ((P.take (page + 1)).flatten.length)
          (memBytes mem src margin) ∧
        page2 < bound ∧
        diff2 ≤ (P2.getD page2 []).length ∧
        len2 = (P2.getD page2 []).length - diff2 ∧
        (P2.take page2).flatten.length + diff2 =
          (P.take (page + 1)).flatten.length + margin ∧
        (margin ≤ size ∧ size < U32 → size2 = size - margin) := by
  intro fuel
  induction fuel with
  | zero =>
    intro P page diff len src size margin R hfuel hPlen hpage hm hmw hsrc hcap
    omega
  | succ fuel ih =>
    intro P page diff len src size margin R hfuel hPlen hpage hm hmw hsrc hcap
    have hp1len : (P.take (page + 1)).flatten.length < P.flatten.length := by omega
    have hp1 : page + 1 < P.length := take_flatten_lt_length P (page + 1) hp1len
    have hget : P.get? (page + 1) = some (P.getD (page + 1) []) :=
      get?_eq_some_getD P (page + 1) [] hp1
    have hsucc1 := flatten_take_succ P (page + 1) hp1
    by_cases hms : margin ≤ (P.getD (page + 1) []).length
    · rw [bylineWhile_step_then mem width pitch bound P page diff len src size margin
        (P.getD (page + 1) []) hm hpage hget hms]
      rw [bylineWhile_margin_zero]
      have hflat : (P.set (page + 1)
            (splice (P.getD (page + 1) []) 0 (memBytes mem src margin))).flatten =
          splice P.flatten ((P.take (page + 1)).flatten.length) (memBytes mem src margin) := by
        have hfs := flatten_set_splice P (page + 1) 0 (memBytes mem src margin) hp1
          (by rw [memBytes_length]; omega)
        simpa using hfs
      have hsliceP2 : (P.set (page + 1)
            (splice (P.getD (page + 1) []) 0 (memBytes mem src margin))).getD (page + 1) [] =
          splice (P.getD (page + 1) []) 0 (memBytes mem src margin) :=
        getD_set_self P (page + 1) _ [] hp1
      have hsl2 : ((P.set (page + 1)
            (splice (P.getD (page + 1) []) 0 (memBytes mem src margin))).getD
            (page + 1) []).length = (P.getD (page + 1) []).length := by
        rw [hsliceP2]
        exact length_splice _ _ 0 (by rw [memBytes_length]; omega)
      have hsrc2 : src + (pitch - width + margin) = R + pitch := by omega
      rw [hsrc2]
      refine ⟨_, page + 1, margin, (P.getD (page + 1) []).length - margin,
        wsub size margin, rfl, ?_, hflat, ?_, ?_, ?_, ?_, ?_⟩
      · simp [hPlen]
      · omega
      · rw [hsl2]
        exact hms
      · rw [hsl2]
      · rw [take_set_of_le P (page + 1) _ (page + 1) (le_refl _)]
      · intro hc
        exact wsub_exact size margin hc.1 hc.2
    · rw [bylineWhile_step_else mem width pitch bound P page diff len src size margin
        (P.getD (page + 1) []) hm hpage hget hms]
      have hflat' : (P.set (page + 1) (splice (P.getD (page + 1) []) 0
            (memBytes mem src (P.getD (page + 1) []).length))).flatten =
          splice P.flatten ((P.take (page + 1)).flatten.length)
            (memBytes mem src (P.getD (page + 1) []).length) := by
        have hfs := flatten_set_splice P (page + 1) 0
          (memBytes mem src (P.getD (page + 1) []).length) hp1
          (by rw [memBytes_length]; omega)
        simpa using hfs
      have hfl_le : (P.take (page + 1)).flatten.length +
          (P.getD (page + 1) []).length ≤ P.flatten.length := fpos_slice_le P (page + 1) hp1
      have hlenP' : (P.set (page + 1) (splice (P.getD (page + 1) []) 0
            (memBytes mem src (P.getD (page + 1) []).length))).flatten.length =
          P.flatten.length := by
        rw [hflat']
        exact length_splice _ _ _ (by rw [memBytes_length]; omega)
      have hlenP'2 : (P.set (page + 1) (splice (P.getD (page + 1) []) 0
            (memBytes mem src (P.getD (page + 1) []).length))).length = bound := by
        simp [hPlen]
      have hsucc' : ((P.set (page + 1) (splice (P.getD (page + 1) []) 0
            (memBytes mem src (P.getD (page + 1) []).length))).take (page + 1 + 1)).flatten.length =
          (P.take (page + 1)).flatten.length + (P.getD (page + 1) []).length := by
        rw [flatten_take_succ _ (page + 1) (by rw [List.length_set]; exact hp1)]
        rw [take_set_of_le P (page + 1) _ (page + 1) (le_refl _)]
        rw [getD_set_self P (page + 1) _ [] hp1]
        rw [length_splice _ _ 0 (by rw [memBytes_length]; omega)]
      obtain ⟨P2, page2, diff2, len2, size2, heq, hb2, hfl2, hpg2, hd2, hl2, hpos2, hsz2⟩ :=
        ih (P.set (page + 1) (splice (P.getD (page + 1) []) 0
            (memBytes mem src (P.getD (page + 1) []).length)))
          (page + 1) 0 (P.getD (page + 1) []).length (src + (P.getD (page + 1) []).length)
          (wsub size (P.getD (page + 1) []).length)
          (margin - (P.getD (page + 1) []).length) R
          (by omega) hlenP'2 (by omega) (by omega) (by omega) (by omega)
          (by rw [hsucc', hlenP']; omega)
      rw [heq]
      refine ⟨P2, page2, diff2, len2, size2, rfl, hb2, ?_, hpg2, hd2, hl2, ?_, ?_⟩
      · rw [hfl2, hsucc', hflat']
        have hcomb := splice_splice P.flatten
          (memBytes mem src (P.getD (page + 1) []).length)
          (memBytes mem (src + (P.getD (page + 1) []).length)
            (margin - (P.getD (page + 1) []).length))
          ((P.take (page + 1)).flatten.length)
          (by rw [memBytes_length, memBytes_length]; omega)
        rw [memBytes_length] at hcomb
        rw [hcomb, ← memBytes_append]
        rw [show (P.getD (page + 1) []).length +
          (margin - (P.getD (page + 1) []).length) = margin by omega]
      · rw [hpos2, hsucc']
        omega
      · intro hc
        have hws : wsub size (P.getD (page + 1) []).length =
            size - (P.getD (page + 1) []).length :=
          wsub_exact size _ (by omega) hc.2
        rw [hws] at hsz2
        have hfin := hsz2 ⟨by omega, by omega⟩
        omega

theorem rowsBytes_length (mem : Nat → Nat) (srcY srcUV width height pitch : Nat) :
    ∀ (rows i : Nat),
      (rowsBytes mem srcY srcUV width height pitch i rows).length = width * rows := by
  intro rows
  induction rows with
  | zero => intro i; rfl
  | succ rows ihr =>
    intro i
    unfold rowsBytes
    rw [List.range_succ, List.map_append, List.flatten_append, List.length_append]
    have hr := ihr i
    unfold rowsBytes at hr
    rw [hr]
    simp [memBytes_length, Nat.mul_succ]

theorem rowsBytes_succ (mem : Nat → Nat) (srcY srcUV width height pitch i rows : Nat) :
    rowsBytes mem srcY srcUV width height pitch i (rows + 1) =
      memBytes mem (rowStart srcY srcUV height pitch i) width ++
        rowsBytes mem srcY srcUV width height pitch (i + 1) rows := by
  unfold rowsBytes
  rw [List.range_succ_eq_map rows, List.map_cons, List.flatten_cons, List.map_map]
  have hmap : List.map ((fun j =>
        memBytes mem (rowStart srcY srcUV height pitch (i + j)) width) ∘ Nat.succ)
        (List.range rows) =
      List.map (fun j => memBytes mem (rowStart srcY srcUV height pitch (i + 1 + j)) width)
        (List.range rows) := by
    apply List.map_congr_left
    intro j _
    simp only [Function.comp_apply]
    rw [show i + Nat.succ j = i + 1 + j by omega]
  rw [hmap]
  congr 2

theorem rowStart_cur (srcY srcUV height pitch i src : Nat)
    (h : src = if i ≤ height then srcY + i * pitch else srcUV + (i - height) * pitch) :
    (if i = height then srcUV else src) = rowStart srcY srcUV height pitch i := by
  unfold rowStart
  rcases Nat.lt_trichotomy i height with hlt | heq | hgt
  · rw [if_neg (by omega), if_pos hlt, h, if_pos (by omega)]
  · subst heq
    rw [if_pos rfl, if_neg (by omega)]
    simp
  · rw [if_neg (by omega), if_neg (by omega), h, if_neg (by omega)]

theorem rowStart_next (srcY srcUV height pitch i src : Nat)
    (h : src = if i ≤ height then srcY + i * pitch else srcUV + (i - height) * pitch) :
    (if i = height then srcUV else src) + pitch =
      (if i + 1 ≤ height then srcY + (i + 1) * pitch
       else srcUV + (i + 1 - height) * pitch) := by
  rcases Nat.lt_trichotomy i height with hlt | heq | hgt
  · rw [if_neg (by omega), if_pos (by omega), h, if_pos (by omega), Nat.succ_mul]
    omega
  · subst heq
    rw [if_pos rfl, if_neg (by omega)]
    rw [show i + 1 - i = 1 by omega, Nat.one_mul]
  · rw [if_neg (by omega), if_neg (by omega), h, if_neg (by omega)]
    rw [show i + 1 - height = (i - height) + 1 by omega, Nat.succ_mul]
    omega

theorem bylineRows_step_fast (mem : Nat → Nat) (srcUV width height pitch bound : Nat)
    (rows i : Nat) (P : List (List Nat)) (page diff len src size : Nat) (s : List Nat)
    (hp : page < bound) (hs : P.get? page = some s)
    (hw : width ≤ len) (hb : diff + width ≤ s.length) :
    bylineRows mem srcUV width height pitch bound (rows + 1) i P page diff len src size =
      bylineRows mem srcUV width height pitch bound rows (i + 1)
        (P.set page (splice s diff
          (memBytes mem (if i = height then srcUV else src) width))) page
        (diff + width) (len - width)
        ((if i = height then srcUV else src) + pitch) (wsub size width) := by
  show (if page < bound then _ else some (P, size)) = _
  rw [if_pos hp]
  rw [hs]
  dsimp only
  rw [if_pos hw]
  unfold writeAtO
  rw [if_pos (by rw [memBytes_length]; exact hb)]

theorem bylineRows_step_spill (mem : Nat → Nat) (srcUV width height pitch bound : Nat)
    (rows i : Nat) (P : List (List Nat)) (page diff len src size : Nat) (s : List Nat)
    (hp : page < bound) (hs : P.get? page = some s)
    (hw : ¬ width ≤ len) (hb : diff + len ≤ s.length) :
    bylineRows mem srcUV width height pitch bound (rows + 1) i P page diff len src size =
      (match bylineWhile mem width pitch bound
          (P.set page (splice s diff
            (memBytes mem (if i = height then srcUV else src) len))) page
          (diff + len) len ((if i = height then srcUV else src) + len)
          (wsub size len) (width - len) with
      | none => none
      | some (plane2, page2, diff2, len2, src2, size2) =>
        bylineRows mem srcUV width height pitch bound rows (i + 1)
          plane2 page2 diff2 len2 src2 size2) := by
  show (if page < bound then _ else some (P, size)) = _
  rw [if_pos hp]
  rw [hs]
  dsimp only
  rw [if_neg hw]
  unfold writeAtO
  rw [if_pos (by rw [memBytes_length]; exact hb)]

/-- The row loop of `virtio_video_memcpy_byline`, under sufficient slice
capacity: starting from a consistent mid-slice state at flat position
`pos`, it deposits exactly the `width`-byte prefixes of the `rows`
remaining source rows at `pos`, leaving everything else intact, and the
byte counter is decremented by exactly `width` per row. -/
theorem bylineRows_spec (mem : Nat → Nat) (srcY srcUV width height pitch bound : Nat)
    (hwp : width ≤ pitch) :
    ∀ (rows i : Nat) (P : List (List Nat)) (page diff len src size : Nat),
      P.length = bound →
      page < bound →
      diff ≤ (P.getD page []).length →
      len = (P.getD page []).length - diff →
      src = (if i ≤ height then srcY + i * pitch else srcUV + (i - height) * pitch) →
      (P.take page).flatten.length + diff + width * rows ≤ P.flatten.length →
      ∃ P2 size2,
        bylineRows mem srcUV width height pitch bound rows i P page diff len src size =
          some (P2, size2) ∧
        P2.flatten = splice P.flatten ((P.take page).flatten.length + diff)
          (rowsBytes mem srcY srcUV width height pitch i rows) ∧
        P2.flatten.length = P.flatten.length ∧
        (width * rows ≤ size ∧ size < U32 → size2 = size - width * rows) := by
  intro rows
  induction rows with
  | zero =>
    intro i P page diff len src size hPlen hp hdiff hlen hsrc hcap
    refine ⟨P, size, rfl, ?_, rfl, ?_⟩
    · rw [show rowsBytes mem srcY srcUV width height pitch i 0 = [] from rfl, splice_nil]
    · intro _
      omega
  | succ rows ih =>
    intro i P page diff len src size hPlen hp hdiff hlen hsrc hcap
    have hpP : page < P.length := by omega
    have hget : P.get? page = some (P.getD page []) := get?_eq_some_getD P page [] hpP
    have hfse := fpos_slice_le P page hpP
    have hmulsucc : width * (rows + 1) = width * rows + width := Nat.mul_succ width rows
    have hsrc1 : (if i = height then srcUV else src) = rowStart srcY srcUV height pitch i :=
      rowStart_cur srcY srcUV height pitch i src hsrc
    have hsrcnext := rowStart_next srcY srcUV height pitch i src hsrc
    by_cases hwl : width ≤ len
    · -- the whole row fits in the current slice
      have hb : diff + width ≤ (P.getD page []).length := by omega
      rw [bylineRows_step_fast mem srcUV width height pitch bound rows i P page diff len
        src size (P.getD page []) hp hget hwl hb]
      have hflat' := flatten_set_splice P page diff
        (memBytes mem (if i = height then srcUV else src) width) hpP
        (by rw [memBytes_length]; exact hb)
      have hsl' := getD_set_self P page (splice (P.getD page [])
        diff (memBytes mem (if i = height then srcUV else src) width)) [] hpP
      have hsll' : ((P.set page (splice (P.getD page [])
          diff (memBytes mem (if i = height then srcUV else src) width))).getD page []).length
          = (P.getD page []).length := by
        rw [hsl']
        exact length_splice _ _ _ (by rw [memBytes_length]; exact hb)
      have htk' : (P.set page (splice (P.getD page [])
          diff (memBytes mem (if i = height then srcUV else src) width))).take page
          = P.take page := take_set_of_le P page _ page (le_refl _)
      have hfl'len : (P.set page (splice (P.getD page [])
          diff (memBytes mem (if i = height then srcUV else src) width))).flatten.length
          = P.flatten.length := by
        rw [hflat']
        exact length_splice _ _ _ (by rw [memBytes_length]; omega)
      obtain ⟨P2, size2, heq2, hfl2, hlen2, hsz2⟩ :=
        ih (i + 1) (P.set page (splice (P.getD page [])
            diff (memBytes mem (if i = height then srcUV else src) width)))
          page (diff + width) (len - width)
          ((if i = height then srcUV else src) + pitch) (wsub size width)
          (by simp [hPlen]) hp (by rw [hsll']; omega) (by rw [hsll']; omega)
          hsrcnext
          (by rw [htk', hfl'len]; omega)
      refine ⟨P2, size2, heq2, ?_, ?_, ?_⟩
      · rw [hfl2, htk', hflat']
        rw [show (P.take page).flatten.length + (diff + width) =
          (P.take page).flatten.length + diff +
            (memBytes mem (if i = height then srcUV else src) width).length by
          rw [memBytes_length]; omega]
        rw [splice_splice P.flatten _ _ _
          (by rw [memBytes_length, rowsBytes_length]; omega)]
        rw [hsrc1, ← rowsBytes_succ]
      · rw [hlen2, hfl'len]
      · intro hc
        have hwle : width ≤ size := by omega
        rw [wsub_exact size width hwle hc.2] at hsz2
        have hfin := hsz2 ⟨by omega, by omega⟩
        omega
    · -- the row spills into the following slices
      have hb : diff + len ≤ (P.getD page []).length := by omega
      have hslc : (P.getD page []).length = diff + len := by omega
      rw [bylineRows_step_spill mem srcUV width height pitch bound rows i P page diff len
        src size (P.getD page []) hp hget hwl hb]
      have hflat' := flatten_set_splice P page diff
        (memBytes mem (if i = height then srcUV else src) len) hpP
        (by rw [memBytes_length]; exact hb)
      have hsl' := getD_set_self P page (splice (P.getD page [])
        diff (memBytes mem (if i = height then srcUV else src) len)) [] hpP
      have hsll' : ((P.set page (splice (P.getD page [])
          diff (memBytes mem (if i = height then srcUV else src) len))).getD page []).length
          = (P.getD page []).length := by
        rw [hsl']
        exact length_splice _ _ _ (by rw [memBytes_length]; exact hb)
      have htk' : (P.set page (splice (P.getD page [])
          diff (memBytes mem (if i = height then srcUV else src) len))).take page
          = P.take page := take_set_of_le P page _ page (le_refl _)
      have hfl'len : (P.set page (splice (P.getD page [])
          diff (memBytes mem (if i = height then srcUV else src) len))).flatten.length
          = P.flatten.length := by
        rw [hflat']
        exact length_splice _ _ _ (by rw [memBytes_length]; omega)
      have hts : ((P.set page (splice (P.getD page [])
          diff (memBytes mem (if i = height then srcUV else src) len))).take
            (page + 1)).flatten.length
          = (P.take page).flatten.length + (P.getD page []).length := by
        rw [flatten_take_succ _ page (by rw [List.length_set]; exact hpP), htk', hsl',
          length_splice _ _ _ (by rw [memBytes_length]; exact hb)]
      obtain ⟨P2w, page2, diff2, len2, size2w, heqw, hbw, hflw, hpgw, hdw, hlw, hposw, hszw⟩ :=
        bylineWhile_spec mem width pitch bound hwp bound
          (P.set page (splice (P.getD page [])
            diff (memBytes mem (if i = height then srcUV else src) len)))
          page (diff + len) len ((if i = height then srcUV else src) + len)
          (wsub size len) (width - len) (if i = height then srcUV else src)
          (Nat.sub_le bound page)
          (by simp [hPlen]) hp (by omega) (by omega) (by omega)
          (by rw [hts, hfl'len]; omega)
      rw [heqw]
      have hP2wlen : P2w.flatten.length = P.flatten.length := by
        rw [hflw, length_splice _ _ _ (by rw [memBytes_length, hts, hfl'len]; omega),
          hfl'len]
      obtain ⟨P2, size2, heq2, hfl2, hlen2, hsz2⟩ :=
        ih (i + 1) P2w page2 diff2 len2
          ((if i = height then srcUV else src) + pitch) size2w
          hbw hpgw hdw hlw hsrcnext
          (by rw [hposw, hts, hP2wlen]; omega)
      refine ⟨P2, size2, heq2, ?_, ?_, ?_⟩
      · rw [hfl2, hposw, hts, hflw, hts, hflat']
        rw [show (P.take page).flatten.length + (P.getD page []).length =
          (P.take page).flatten.length + diff +
            (memBytes mem (if i = height then srcUV else src) len).length by
          rw [memBytes_length]; omega]
        rw [splice_splice P.flatten _ _ _
          (by rw [memBytes_length, memBytes_length]; omega)]
        rw [← memBytes_append]
        rw [show len + (width - len) = width by omega]
        rw [show (P.take page).flatten.length + diff +
            (memBytes mem (if i = height then srcUV else src) len).length + (width - len) =
          (P.take page).flatten.length + diff +
            (memBytes mem (if i = height then srcUV else src) width).length by
          rw [memBytes_length, memBytes_length]; omega]
        rw [splice_splice P.flatten _ _ _
          (by rw [memBytes_length, rowsBytes_length]; omega)]
        rw [hsrc1, ← rowsBytes_succ]
      · rw [hlen2, hP2wlen]
      · intro hc
        have hlle : len ≤ size := by omega
        rw [wsub_exact size len hlle hc.2] at hszw
        have hw1 := hszw ⟨by omega, by omega⟩
        rw [hw1] at hsz2
        have hfin := hsz2 ⟨by omega, by omega⟩
        omega

/-- C6: for every strided transfer with `row_pitch > row_width` (and enough
slice capacity for `cp_height` rows of `width` bytes starting at
`plane_offsets[idx]`), `virtio_video_memcpy_byline` deposits into the plane
exactly the `width`-byte prefix of each source row — rows below `height`
from the primary buffer, later rows from the secondary buffer, each row
`pitch` bytes after the previous — so the padding between `width` and
`pitch` never appears in the output, bytes before the plane offset and
after the written window are untouched, and the transfer returns 0 when
`cp_size` equals the `width * cp_height` bytes actually copied. -/
theorem byline_copies_row_width_bytes_only
    (res : VirtIOVideoResource) (idx : Nat) (mem : Nat → Nat)
    (src_begin src_uv width height pitch cp_size cp_height : Nat)
    (hwp : width < pitch)
    (hbound : (res.slices.getD 0 []).length = (res.slices.getD idx []).length)
    (h0 : 0 < (res.slices.getD idx []).length)
    (hk : res.plane_offsets.getD idx 0 ≤ ((res.slices.getD idx []).getD 0 []).length)
    (hcap : res.plane_offsets.getD idx 0 + width * cp_height ≤
      (res.slices.getD idx []).flatten.length)
    (hU : cp_size < U32) :
    ∃ P2 r, virtio_video_memcpy_byline res idx mem src_begin src_uv width height pitch
        cp_size cp_height = some ({ res with slices := res.slices.set idx P2 }, r) ∧
      P2.flatten = (res.slices.getD idx []).flatten.take (res.plane_offsets.getD idx 0) ++
        rowsBytes mem src_begin src_uv width height pitch 0 cp_height ++
        (res.slices.getD idx []).flatten.drop
          (res.plane_offsets.getD idx 0 + width * cp_height) ∧
      (cp_size = width * cp_height → r = 0) := by
  obtain ⟨P2, size2, heq, hfl, hlen, hsz⟩ :=
    bylineRows_spec mem src_begin src_uv width height pitch
      ((res.slices.getD 0 []).length) (le_of_lt hwp) cp_height 0
      (res.slices.getD idx []) 0 (res.plane_offsets.getD idx 0)
      (((res.slices.getD idx []).getD 0 []).length - res.plane_offsets.getD idx 0)
      src_begin cp_size hbound.symm (by omega) hk rfl (by simp)
      (by simp only [List.take_zero, List.flatten_nil, List.length_nil, Nat.zero_add]
          exact hcap)
  refine ⟨P2, if 0 < size2 then -1 else 0, ?_, ?_, ?_⟩
  · unfold virtio_video_memcpy_byline
    dsimp only
    rw [get?_eq_some_getD (res.slices.getD idx []) 0 [] h0]
    dsimp only
    rw [if_pos hk, heq]
  · rw [hfl]
    unfold splice
    rw [rowsBytes_length]
    simp
  · intro hq
    have hfin := hsz ⟨by omega, hU⟩
    have hz : size2 = 0 := by omega
    rw [hz]
    rfl

theorem byline_copies_row_width_bytes_only_witness :
    4 < 6 ∧
    ((VirtIOVideoResource.mk 1 [0] [[[0, 0, 0, 0, 0], [0, 0, 0, 0], [0, 0, 0]]]
        none).slices.getD 0 []).length =
      ((VirtIOVideoResource.mk 1 [0] [[[0, 0, 0, 0, 0], [0, 0, 0, 0], [0, 0, 0]]]
        none).slices.getD 0 []).length ∧
    0 < ((VirtIOVideoResource.mk 1 [0] [[[0, 0, 0, 0, 0], [0, 0, 0, 0], [0, 0, 0]]]
        none).slices.getD 0 []).length ∧
    (∃ P2 r, virtio_video_memcpy_byline
        (VirtIOVideoResource.mk 1 [0] [[[0, 0, 0, 0, 0], [0, 0, 0, 0], [0, 0, 0]]] none)
        0 (fun a => a) 0 100 4 2 6 12 3 =
        some ({ VirtIOVideoResource.mk 1 [0] [[[0, 0, 0, 0, 0], [0, 0, 0, 0], [0, 0, 0]]] none
          with slices := (VirtIOVideoResource.mk 1 [0]
            [[[0, 0, 0, 0, 0], [0, 0, 0, 0], [0, 0, 0]]] none).slices.set 0 P2 }, r) ∧
      P2.flatten = ((VirtIOVideoResource.mk 1 [0]
          [[[0, 0, 0, 0, 0], [0, 0, 0, 0], [0, 0, 0]]] none).slices.getD 0 []).flatten.take 0 ++
        rowsBytes (fun a => a) 0 100 4 2 6 0 3 ++
        ((VirtIOVideoResource.mk 1 [0]
          [[[0, 0, 0, 0, 0], [0, 0, 0, 0], [0, 0, 0]]] none).slices.getD 0 []).flatten.drop
          (0 + 4 * 3) ∧
      (12 = 4 * 3 → r = 0)) := by
  refine ⟨by decide, rfl, by decide, ?_⟩
  exact byline_copies_row_width_bytes_only
    (VirtIOVideoResource.mk 1 [0] [[[0, 0, 0, 0, 0], [0, 0, 0, 0], [0, 0, 0]]] none)
    0 (fun a => a) 0 100 4 2 6 12 3 (by decide) rfl (by decide) (by decide) (by decide)
    (by decide)
